import Mathlib

set_option autoImplicit false

/-!
Verification of the rule-tree core of the `offlinecopy` repository
(`offlinecopy_impl/target.py`, with the legacy variant `fancysync/nodes.py`
modelled separately at the end).

Paths are modelled as `String`s, manipulated through their underlying
character lists.  Machine-level concerns do not arise: the Python code is
pure tree and string manipulation.
-/

namespace Offlinecopy

/-! ## Path splitting

`path_split` in `offlinecopy_impl/target.py` repeatedly applies
`os.path.split` to the head of the parts list until it reaches a fixpoint,
right-strips separators from the final head and drops empty parts.
`posixSplit` embeds CPython's `posixpath.split`:
`i = p.rfind('/') + 1; head, tail = p[:i], p[i:]`, where `head` is
right-stripped of `'/'` unless it is empty or consists only of slashes.
-/

/-- Right strip of the separator, as in Python's `str.rstrip("/")`. -/
def rstripSlashL (l : List Char) : List Char :=
  (l.reverse.dropWhile (· == '/')).reverse

/-- The component after the last separator (`p[i:]` with
`i = p.rfind('/') + 1`). -/
def tailOf (p : List Char) : List Char :=
  (p.reverse.takeWhile (· != '/')).reverse

/-- Everything up to and including the last separator (`p[:i]`). -/
def headRawOf (p : List Char) : List Char :=
  (p.reverse.dropWhile (· != '/')).reverse

/-- Embedding of `posixpath.split`: split off the component after the last
separator; the head keeps trailing separators only when it consists of
nothing else. -/
def posixSplit (p : List Char) : List Char × List Char :=
  let head :=
    if headRawOf p ≠ [] ∧ ¬ ((headRawOf p).all (· == '/')) then
      rstripSlashL (headRawOf p)
    else headRawOf p
  (head, tailOf p)

/-- The `while parts[0] != prev_lhs` loop of `path_split`: repeatedly split
the head of the parts list until `os.path.split` leaves it unchanged.  The
fuel argument bounds the number of iterations; `path_split` supplies enough
fuel for the loop to reach its fixpoint. -/
def peelF : Nat → List Char → List (List Char) → List (List Char)
  | 0, cur, acc => cur :: acc
  | fuel + 1, cur, acc =>
    let s := posixSplit cur
    if s.1 = cur then s.1 :: s.2 :: acc
    else peelF fuel s.1 (s.2 :: acc)

/-- Character-list level `path_split`. -/
def pathSplitL (p : List Char) : List (List Char) :=
  let s0 := posixSplit p
  match peelF (s0.1.length + 1) s0.1 [s0.2] with
  | [] => []
  | h :: ts => (rstripSlashL h :: ts).filter (· != [])

/-- `path_split` from `offlinecopy_impl/target.py`. -/
def path_split (s : String) : List String :=
  (pathSplitL s.data).map (fun l => ⟨l⟩)

/-! ### The specification-side splitter

The spec describes the normalizer as: split on the path separator, discard
empty segments, preserve order.  `splitSegs` is that description, written
directly (accumulating the current segment in reverse). -/

/-- Accumulator worker for `splitSegs`; `cur` is the reversed current
segment. -/
def splitSegsAux (cur : List Char) : List Char → List (List Char)
  | [] => if cur = [] then [] else [cur.reverse]
  | c :: cs =>
    if c = '/' then
      if cur = [] then splitSegsAux [] cs
      else cur.reverse :: splitSegsAux [] cs
    else splitSegsAux (c :: cur) cs

/-- Split on `'/'` discarding empty segments — the spec's description of the
normalizer, used as the comparison point for `path_split`. -/
def splitSegs (l : List Char) : List (List Char) := splitSegsAux [] l

/-- String-level spec splitter. -/
def pathSplitSpec (s : String) : List String :=
  (splitSegs s.data).map (fun l => ⟨l⟩)

/-! ## States and rule trees (`offlinecopy_impl/target.py`) -/

/-- The two-valued `State` enum. -/
inductive State where
  | included
  | evicted
deriving DecidableEq, Repr

/-- A rule-tree node: insertion-ordered child map keyed by segment name,
plus the optional explicit state.  The Python `parent` back-reference is
used only for state resolution and parent queries; here the relevant
parent data is passed down explicitly instead. -/
inductive Node where
  | mk (childmap : List (String × Node)) (state : Option State)

def Node.childmap : Node → List (String × Node)
  | .mk cm _ => cm

def Node.state : Node → Option State
  | .mk _ st => st

/-- Effective state (`Node.get_state`): the explicit state if present,
else the parent's effective state `pe` (`none` when there is no parent),
else `Included`. -/
def effState (pe : Option State) (n : Node) : State :=
  match n.state with
  | some s => s
  | none =>
    match pe with
    | some s => s
    | none => State.included

mutual
/-- Size of a node, used as fuel for the recursive tree walks (the
automatically generated `SizeOf` for a nested inductive is not
executable). -/
def nodeSize : Node → Nat
  | .mk cm _ => 1 + nodeListSize cm

/-- Total size of the nodes of a child map. -/
def nodeListSize : List (String × Node) → Nat
  | [] => 0
  | kc :: rest => nodeSize kc.2 + 1 + nodeListSize rest
end

/-! ### Sorting the child map

Python's `sorted(childmap.items(), key=lambda x: x[0])` sorts ascending by
segment name, comparing strings lexicographically by code point.  The
comparison is spelled out on character lists so that it evaluates inside
the kernel. -/

/-- Lexicographic (code-point) comparison, Python `str <=`. -/
def listLexLe : List Char → List Char → Bool
  | [], _ => true
  | _ :: _, [] => false
  | a :: as, b :: bs =>
    if a < b then true
    else if b < a then false
    else listLexLe as bs

def strLeb (a b : String) : Bool := listLexLe a.data b.data

/-- Strict lexicographic comparison, Python `str <`. -/
def strLtb (a b : String) : Bool := strLeb a b && (a != b)

def sortChildren (cm : List (String × Node)) : List (String × Node) :=
  List.insertionSort (fun a b => strLeb a.1 b.1 = true) cm

/-- `rebase_rules` from `offlinecopy_impl/target.py`: set
`prefix += "/"`; a `None` path becomes `prefix.rstrip("/")`, any other
path gets `prefix` prepended.  (Generic in the first component: the code
applies it to rule markers and to states alike.) -/
def rebase_rules {m : Type} (pre : String) (rules : List (m × Option String)) :
    List (m × Option String) :=
  rules.map fun r =>
    match r.2 with
    | none => (r.1, some (String.mk (rstripSlashL (pre ++ "/").data)))
    | some q => (r.1, some (pre ++ "/" ++ q))

/-! ### The rule compiler (`Node._iter_rules`) -/

/-- The boundary rules a node emits for itself, after its children's
blocks: the `if/elif` chain at the end of `Node._iter_rules`.  `pe` is the
parent's effective state (`none` at the root, which the Python code
queries as `self.parent is None` / `self.parent.get_state()`). -/
def ownRules (pe : Option State) (n : Node) : List (String × Option String) :=
  if n.state = some State.included then
    if pe.isSome then [("+", none)] else []
  else if n.childmap.isEmpty = false ∧ effState pe n = State.evicted then
    ("-", some "*") :: (if pe = some State.evicted then [("+", none)] else [])
  else if n.state = some State.evicted then
    if pe.isSome then [("-", none)] else [("-", some "*")]
  else []

/-- Fueled worker for `Node._iter_rules`: children in ascending segment
order, each child's block rebased, then the node's own boundary rules.
`Node.iterRulesFrom` supplies sufficient fuel. -/
def iterRulesF : Nat → Option State → Node → List (String × Option String)
  | 0, _, _ => []
  | fuel + 1, pe, n =>
    (sortChildren n.childmap).flatMap
      (fun sc => rebase_rules sc.1 (iterRulesF fuel (some (effState pe n)) sc.2))
    ++ ownRules pe n

/-- `Node._iter_rules` with parent effective state `pe`. -/
def Node.iterRulesFrom (pe : Option State) (n : Node) :
    List (String × Option String) :=
  iterRulesF (nodeSize n) pe n

/-- `Node.iter_rules` / `Target.iter_filter_rules` (the node is a root). -/
def Node.iter_rules (n : Node) : List (String × Option String) :=
  n.iterRulesFrom none

/-! ### The flat codec (`Node.iter_nodes`) -/

/-- Fueled worker for `Node.iter_nodes`: the node's own `(state, path)`
entry first (path `""` at the root, `None` below it, later rebased), then
the children's blocks in ascending segment order. -/
def iterNodesF : Nat → Bool → Node → List (State × Option String)
  | 0, _, _ => []
  | fuel + 1, hasParent, n =>
    (match n.state with
     | some st => [(st, if hasParent then none else some "")]
     | none => []) ++
    (sortChildren n.childmap).flatMap
      (fun sc => rebase_rules sc.1 (iterNodesF fuel true sc.2))

/-- `Node.iter_nodes` for a node with or without a parent. -/
def Node.iterNodesFrom (hasParent : Bool) (n : Node) :
    List (State × Option String) :=
  iterNodesF (nodeSize n) hasParent n

/-- `Target.iter_flat_nodes` (the node is a parentless root). -/
def Node.iter_nodes (n : Node) : List (State × Option String) :=
  n.iterNodesFrom false

/-! ### The pruner (`Node.prune`) -/

/-- Fueled worker for `Node.prune`; `eff` is this node's own effective
state (`self.get_state()` in the Python code).  Children are visited in
insertion order; a child is dropped when, after its own pruning, its
explicit state equals this node's effective state and it has no children
left. -/
def pruneF : Nat → State → Node → Node
  | 0, _, n => n
  | fuel + 1, eff, n =>
    Node.mk
      (n.childmap.foldr
        (fun kc acc =>
          let c := pruneF fuel (effState (some eff) kc.2) kc.2
          if c.state = some eff ∧ c.childmap.isEmpty then acc
          else (kc.1, c) :: acc)
        [])
      n.state

/-- `Node.prune` with this node's effective state `eff`. -/
def Node.pruneAux (eff : State) (n : Node) : Node :=
  pruneF (nodeSize n) eff n

/-- `Target.prune`: prune the root (whose effective state resolves with no
parent present). -/
def Node.pruneTop (n : Node) : Node :=
  n.pruneAux (effState none n)

/-! ### Walking and updating along a path -/

/-- Association-list lookup in a child map (`childmap[part]`). -/
def findChild (k : String) : List (String × Node) → Option Node
  | [] => none
  | kc :: rest => if kc.1 = k then some kc.2 else findChild k rest

/-- `get_node(path)[0].get_state()`: walk through existing children as far
as possible carrying the inherited state, and resolve at the deepest node
reached. -/
def getStateFrom (inh : State) (n : Node) : List String → State
  | [] => n.state.getD inh
  | p :: ps =>
    match findChild p n.childmap with
    | none => n.state.getD inh
    | some c => getStateFrom (n.state.getD inh) c ps

/-- A chain of fresh stateless nodes whose final node carries `st` (what
`ensure_node` creates for the unmatched suffix, followed by the state
assignment). -/
def newChain (st : State) : List String → Node
  | [] => Node.mk [] (some st)
  | p :: ps => Node.mk [(p, newChain st ps)] none

/-- `node = root.ensure_node(path); node.state = st` as one functional
update: walk existing children, then append a fresh chain (`setdefault`
inserts new keys at the end of the insertion order). -/
def ensureSet (st : State) : List String → Node → Node
  | [], n => Node.mk n.childmap (some st)
  | p :: ps, n =>
    match findChild p n.childmap with
    | some _ =>
      Node.mk
        (n.childmap.map fun e => if e.1 = p then (e.1, ensureSet st ps e.2) else e)
        n.state
    | none => Node.mk (n.childmap ++ [(p, newChain st ps)]) n.state

/-! ### The `Target` operations -/

/-- A fresh target's rule tree: `Node()` with `state = State.EVICTED`
(`Target.__init__`). -/
def newTarget : Node := Node.mk [] (some State.evicted)

/-- `Target.get_state`. -/
def getState (n : Node) (path : String) : State :=
  getStateFrom State.included n (path_split path)

/-- `Target.evict`. -/
def evict (path : String) (n : Node) : Node :=
  if getState n path = State.evicted then n
  else ensureSet State.evicted (path_split path) n

/-- `Target.include`. -/
def incl (path : String) (n : Node) : Node :=
  if getState n path = State.included then n
  else ensureSet State.included (path_split path) n

/-- `Target.from_flat_nodes`: clear the tree, then `ensure_node` and set
the state for each entry in order. -/
def from_flat_nodes (flat : List (State × String)) : Node :=
  flat.foldl (fun t e => ensureSet e.1 (path_split e.2) t) (Node.mk [] none)

/-- Rule trees reachable from a fresh target by `evict`/`include` calls. -/
inductive Reachable : Node → Prop where
  | init : Reachable newTarget
  | evictStep (p : String) {n : Node} : Reachable n → Reachable (evict p n)
  | includeStep (p : String) {n : Node} : Reachable n → Reachable (incl p n)

/-! ### Well-formedness checker

Trees built by the target operations have child maps whose keys are
distinct, non-empty and separator-free; `Node.wf` checks this
recursively. -/

def segOKb (s : String) : Bool := (s != "") && s.data.all (fun c => c != '/')

def keysUniqueb : List String → Bool
  | [] => true
  | k :: rest => rest.all (fun k2 => k2 != k) && keysUniqueb rest

def wfF : Nat → Node → Bool
  | 0, _ => false
  | fuel + 1, n =>
    keysUniqueb (n.childmap.map (fun kc => kc.1)) &&
    n.childmap.all (fun kc => segOKb kc.1 && wfF fuel kc.2)

/-- Recursive well-formedness of a rule tree. -/
def Node.wf (n : Node) : Bool := wfF (nodeSize n) n

/-! ### The minimality invariant I2 checker -/

/-- Fueled check of invariant I2: no child has an explicit state equal to
this node's effective state `eff` while having no children. -/
def checkI2F : Nat → State → Node → Bool
  | 0, _, _ => false
  | fuel + 1, eff, n =>
    n.childmap.all fun kc =>
      !(decide (kc.2.state = some eff) && kc.2.childmap.isEmpty) &&
      checkI2F fuel (effState (some eff) kc.2) kc.2

/-- Invariant I2 below a node whose effective state is `eff`. -/
def Node.checkI2 (eff : State) (n : Node) : Bool :=
  checkI2F (nodeSize n) eff n

/-! ### Explicit-state views used in the round-trip proofs -/

/-- The explicit state found at exactly the path `parts`, `none` when the
node does not exist or carries no state. -/
def explicitAt (n : Node) : List String → Option State
  | [] => n.state
  | p :: ps =>
    match findChild p n.childmap with
    | none => none
    | some c => explicitAt c ps

/-- The explicit state of the deepest existing prefix of `parts` carrying
one. -/
def lastExp (n : Node) : List String → Option State
  | [] => n.state
  | p :: ps =>
    match findChild p n.childmap with
    | none => n.state
    | some c => (lastExp c ps).or n.state

/-- Last `some` in a list of optional states. -/
def resolveChain (l : List (Option State)) : Option State :=
  l.foldl (fun acc o => o.or acc) none

/-- Render a segment sequence the way nested `rebase_rules` calls do:
joined by single separators, the empty sequence rendering as `""`. -/
def renderPath : List String → String
  | [] => ""
  | [s] => s
  | s :: rest => s ++ "/" ++ renderPath rest

/-- Fueled pre-order listing of the explicitly stated nodes, with their
segment sequences (the flat codec, before path rendering). -/
def flatPairsF : Nat → Node → List (State × List String)
  | 0, _ => []
  | fuel + 1, n =>
    (match n.state with
     | some st => [(st, [])]
     | none => []) ++
    (sortChildren n.childmap).flatMap
      (fun sc => (flatPairsF fuel sc.2).map (fun e => (e.1, sc.1 :: e.2)))

/-- Pre-order explicit-node listing of a tree. -/
def Node.flatPairs (n : Node) : List (State × List String) :=
  flatPairsF (nodeSize n) n

/-! ### Concrete example trees -/

/-- A target whose root's explicit state is `Included` and which is
otherwise fresh (the test suite reaches it as `include("/")` on a new
target). -/
def rootIncluded : Node := Node.mk [] (some State.included)

/-- The tree of the complex scenario:
`evict("A"); include("A/B/C"); evict("A/B/C/D"); include("A/E")`. -/
def targetC3 : Node :=
  incl "A/E" (evict "A/B/C/D" (incl "A/B/C" (evict "A" rootIncluded)))

/-- An example node with one child, no explicit state (hence inheriting
`Evicted` from its parent below). -/
def exC1 : Node := Node.mk [("B", Node.mk [] (some State.evicted))] none

/-- One child-map entry under pruning: the recursively pruned child, or
`none` when `prune` deletes it (`eff` is the parent's effective state). -/
def pruneEntry (eff : State) (kc : String × Node) : Option (String × Node) :=
  let c := kc.2.pruneAux (effState (some eff) kc.2)
  if c.state = some eff ∧ c.childmap.isEmpty then none else some (kc.1, c)

/-- Reachable tree with an intermediate stateless node:
`evict("A/B"); include("A/B")` on an included root. -/
def exC10 : Node := incl "A/B" (evict "A/B" rootIncluded)

/-- The stateless intermediate node `"A"` inside `exC10`. -/
def exC10child : Node := Node.mk [("B", Node.mk [] (some State.included))] none

/-- The state written by the last flat entry whose path normalizes to
`qs`, scanning left to right. -/
def assocLastState (qs : List String) (flat : List (State × String)) :
    Option State :=
  flat.foldl (fun acc e => if path_split e.2 = qs then some e.1 else acc) none

/-- First (and, for a well-formed tree, only) state paired with the
segment sequence `qs` in a flat-pairs listing. -/
def lookupPairs (qs : List String) : List (State × List String) → Option State
  | [] => none
  | e :: rest => if e.2 = qs then some e.1 else lookupPairs qs rest

/-- The path component `iter_nodes` yields for a node reached by `segs`:
`None` below a parent, `""` at a parentless root, and the rendered path
after rebasing. -/
def pathOptF (hp : Bool) (segs : List String) : Option String :=
  if hp = true ∧ segs = [] then none else some (renderPath segs)

/-! ### The legacy `fancysync/nodes.py` node classes

`Node(name)` validates its name (non-empty, no separator, no NUL) and
raises `ValueError` otherwise; `EvictNode`/`IncludeNode` are its two rule
subclasses.  `include` raises `ValueError("conflicts with eviction rule")`
when the terminal path component already exists as a non-include node.
Raising is modelled with `Except String`. -/

namespace Fancysync

inductive FKind where
  | plain
  | evictK
  | includeK
deriving DecidableEq, Repr

inductive FNode where
  | mk (kind : FKind) (name : String) (childmap : List (String × FNode))

def FNode.kind : FNode → FKind
  | .mk k _ _ => k

def FNode.childmap : FNode → List (String × FNode)
  | .mk _ _ cm => cm

/-- `Node.__init__` (fancysync): validate the name, else raise. -/
def mkF (kind : FKind) (name : String) : Except String FNode :=
  if name = "" then Except.error "name must be non-empty string"
  else if name.data.contains '/' || name.data.contains '\x00' then
    Except.error "invalid file or directory name"
  else Except.ok (FNode.mk kind name [])

def lookupF (k : String) : List (String × FNode) → Option FNode
  | [] => none
  | kc :: rest => if kc.1 = k then some kc.2 else lookupF k rest

/-- `childmap[k] = c`: replace in place, or append when absent. -/
def setOrAdd (n : FNode) (k : String) (c : FNode) : FNode :=
  match n with
  | .mk kind name cm =>
    if (lookupF k cm).isSome then
      FNode.mk kind name (cm.map fun e => if e.1 = k then (e.1, c) else e)
    else FNode.mk kind name (cm ++ [(k, c)])

/-- `Node.include` (fancysync/nodes.py): split off the head component;
on a multi-component path, `setdefault` an eagerly constructed
`EvictNode(head)` (whose name validation can raise) and recurse into it;
on a single component, insert an `IncludeNode`, tolerate an existing
include node, and raise on any other existing node. -/
def fincludeF : Nat → FNode → String → Except String FNode
  | 0, _, _ => Except.error "out of fuel"
  | fuel + 1, n, name =>
    let sp := Offlinecopy.posixSplit name.data
    let head := String.mk sp.1
    let tail := String.mk sp.2
    if head = "" then
      match lookupF tail n.childmap with
      | some existing =>
        if existing.kind = FKind.includeK then Except.ok n
        else Except.error "conflicts with eviction rule"
      | none => (mkF FKind.includeK tail).map (fun fresh => setOrAdd n tail fresh)
    else do
      let fresh ← mkF FKind.evictK head
      let child := (lookupF head n.childmap).getD fresh
      let child2 ← fincludeF fuel child tail
      Except.ok (setOrAdd n head child2)

/-- `Node.evict` (fancysync/nodes.py): overwrite the head entry with a
fresh `EvictNode` and recurse into it on a multi-component path. -/
def fevictF : Nat → FNode → String → Except String FNode
  | 0, _, _ => Except.error "out of fuel"
  | fuel + 1, n, name =>
    let sp := Offlinecopy.posixSplit name.data
    let head := String.mk sp.1
    let tail := String.mk sp.2
    if head = "" then
      (mkF FKind.evictK tail).map (fun fresh => setOrAdd n tail fresh)
    else do
      let fresh ← mkF FKind.evictK head
      let child2 ← fevictF fuel fresh tail
      Except.ok (setOrAdd n head child2)

def FNode.evict (n : FNode) (name : String) : Except String FNode :=
  fevictF (name.length + 1) n name

def FNode.incl (n : FNode) (name : String) : Except String FNode :=
  fincludeF (name.length + 1) n name

/-- The test suite's base node, `FakeNode("foo")`. -/
def fBase : FNode := FNode.mk FKind.plain "foo" []

end Fancysync

/-! ## Theorems -/

@[simp] theorem Node.childmap_mk (cm : List (String × Node))
    (st : Option State) : (Node.mk cm st).childmap = cm := rfl

@[simp] theorem Node.state_mk (cm : List (String × Node))
    (st : Option State) : (Node.mk cm st).state = st := rfl

/-! ### Facts about the spec splitter -/

theorem splitSegsAux_append_sep (xs : List Char) :
    ∀ (cur ys : List Char),
      splitSegsAux cur (xs ++ '/' :: ys) =
        splitSegsAux cur xs ++ splitSegs ys := by
  induction xs with
  | nil =>
    intro cur ys
    by_cases h : cur = [] <;> simp [splitSegsAux, splitSegs, h]
  | cons c cs ih =>
    intro cur ys
    by_cases hc : c = '/'
    · subst hc
      by_cases h : cur = [] <;> simp [splitSegsAux, h, ih]
    · simp [splitSegsAux, hc, ih]

theorem splitSegs_append_sep (a b : List Char) :
    splitSegs (a ++ '/' :: b) = splitSegs a ++ splitSegs b :=
  splitSegsAux_append_sep a [] b

theorem splitSegsAux_no_slash (t : List Char) :
    ∀ cur, (∀ c ∈ t, c ≠ '/') →
      splitSegsAux cur t =
        if cur = [] ∧ t = [] then [] else [cur.reverse ++ t] := by
  induction t with
  | nil =>
    intro cur _
    by_cases h : cur = [] <;> simp [splitSegsAux, h]
  | cons c cs ih =>
    intro cur h
    have hc : c ≠ '/' := h c (by simp)
    have hcs : ∀ x ∈ cs, x ≠ '/' := fun x hx => h x (by simp [hx])
    simp [splitSegsAux, hc, ih (c :: cur) hcs]

theorem splitSegs_no_slash (t : List Char) (h : ∀ c ∈ t, c ≠ '/') :
    splitSegs t = if t = [] then [] else [t] := by
  have := splitSegsAux_no_slash t [] h
  simpa [splitSegs] using this

theorem splitSegs_all_slash (l : List Char) (h : ∀ c ∈ l, c = '/') :
    splitSegs l = [] := by
  induction l with
  | nil => rfl
  | cons c cs ih =>
    have hc : c = '/' := h c (by simp)
    subst hc
    simp only [splitSegs, splitSegsAux, if_pos rfl]
    exact ih fun x hx => h x (by simp [hx])

theorem splitSegsAux_mem (t : List Char) :
    ∀ cur seg, (∀ c ∈ cur, c ≠ '/') → seg ∈ splitSegsAux cur t →
      seg ≠ [] ∧ ∀ c ∈ seg, c ≠ '/' := by
  induction t with
  | nil =>
    intro cur seg hcur hm
    by_cases h : cur = []
    · simp [splitSegsAux, h] at hm
    · simp [splitSegsAux, h] at hm
      subst hm
      refine ⟨by simpa using h, ?_⟩
      intro c hc
      exact hcur c (by simpa using hc)
  | cons c cs ih =>
    intro cur seg hcur hm
    by_cases hc : c = '/'
    · subst hc
      by_cases h : cur = []
      · simp [splitSegsAux, h] at hm
        exact ih [] seg (by simp) hm
      · simp [splitSegsAux, h] at hm
        rcases hm with hm | hm
        · subst hm
          refine ⟨by simpa using h, ?_⟩
          intro x hx
          exact hcur x (by simpa using hx)
        · exact ih [] seg (by simp) hm
    · simp only [splitSegsAux, if_neg hc] at hm
      refine ih (c :: cur) seg ?_ hm
      intro x hx
      rcases List.mem_cons.mp hx with rfl | hx
      · exact hc
      · exact hcur x hx

theorem splitSegs_mem {l seg : List Char} (hm : seg ∈ splitSegs l) :
    seg ≠ [] ∧ ∀ c ∈ seg, c ≠ '/' :=
  splitSegsAux_mem l [] seg (by simp) hm

theorem splitSegs_append_all_slash (a b : List Char) (hb : ∀ c ∈ b, c = '/') :
    splitSegs (a ++ b) = splitSegs a := by
  cases b with
  | nil => simp
  | cons c bs =>
    have hc : c = '/' := hb c (by simp)
    subst hc
    rw [splitSegs_append_sep, splitSegs_all_slash bs fun x hx => hb x (by simp [hx])]
    simp

/-! ### Facts about `posixSplit` -/

theorem headRawOf_append_tailOf (p : List Char) :
    headRawOf p ++ tailOf p = p := by
  unfold headRawOf tailOf
  rw [← List.reverse_append, List.takeWhile_append_dropWhile, List.reverse_reverse]

theorem tailOf_no_slash (p : List Char) : ∀ c ∈ tailOf p, c ≠ '/' := by
  intro c hc
  have hc' : c ∈ p.reverse.takeWhile (· != '/') := by
    simpa [tailOf] using hc
  have := List.mem_takeWhile_imp hc'
  simpa using this

theorem headRawOf_shape (p : List Char) :
    headRawOf p = [] ∨ ∃ a, headRawOf p = a ++ ['/'] := by
  rcases hd : p.reverse.dropWhile (· != '/') with _ | ⟨x, rest⟩
  · left; simp [headRawOf, hd]
  · right
    have hx : ¬ (x != '/') = true := by
      have := List.head?_dropWhile_not (p := (· != '/')) (l := p.reverse)
      rw [hd] at this
      simp at this
      simp [this]
    have hx' : x = '/' := by simpa using hx
    subst hx'
    exact ⟨rest.reverse, by simp [headRawOf, hd]⟩

theorem rstripSlashL_length_le (l : List Char) :
    (rstripSlashL l).length ≤ l.length := by
  have h := (List.dropWhile_sublist (p := (· == '/')) (l := l.reverse)).length_le
  simpa [rstripSlashL] using h

theorem rstripSlashL_append_slash (a : List Char) :
    rstripSlashL (a ++ ['/']) = rstripSlashL a := by
  simp [rstripSlashL, List.dropWhile]

theorem rstripSlashL_all_slash (l : List Char) (h : ∀ c ∈ l, c = '/') :
    rstripSlashL l = [] := by
  have : l.reverse.dropWhile (· == '/') = [] := by
    rw [List.dropWhile_eq_nil_iff]
    intro x hx
    have : x = '/' := h x (by simpa using hx)
    simp [this]
  simp [rstripSlashL, this]

theorem rstripSlashL_trailing (l : List Char) :
    ∃ b, l = rstripSlashL l ++ b ∧ ∀ c ∈ b, c = '/' := by
  refine ⟨(l.reverse.takeWhile (· == '/')).reverse, ?_, ?_⟩
  · have h : rstripSlashL l ++ (l.reverse.takeWhile (· == '/')).reverse = l := by
      unfold rstripSlashL
      rw [← List.reverse_append, List.takeWhile_append_dropWhile,
        List.reverse_reverse]
    exact h.symm
  · intro c hc
    have hc' : c ∈ l.reverse.takeWhile (· == '/') := by simpa using hc
    have := List.mem_takeWhile_imp hc'
    simpa using this

theorem splitSegs_rstripSlashL (l : List Char) :
    splitSegs (rstripSlashL l) = splitSegs l := by
  obtain ⟨b, hb, hslash⟩ := rstripSlashL_trailing l
  conv_rhs => rw [hb]
  rw [splitSegs_append_all_slash _ _ hslash]

theorem splitSegs_headRawOf (p : List Char) :
    splitSegs (headRawOf p) ++
      (if tailOf p = [] then [] else [tailOf p]) = splitSegs p := by
  rcases headRawOf_shape p with h | ⟨a, h⟩
  · have hp : p = tailOf p := by
      have := headRawOf_append_tailOf p
      rw [h] at this
      simpa using this.symm
    rw [h]
    conv_rhs => rw [hp]
    rw [splitSegs_no_slash (tailOf p) (tailOf_no_slash p)]
    simp [splitSegs, splitSegsAux]
  · have hp : p = a ++ '/' :: tailOf p := by
      have := headRawOf_append_tailOf p
      rw [h] at this
      simpa using this.symm
    rw [h]
    conv_rhs => rw [hp, splitSegs_append_sep]
    rw [splitSegs_append_all_slash a ['/'] (by simp)]
    rw [splitSegs_no_slash (tailOf p) (tailOf_no_slash p)]

theorem posixSplit_snd (p : List Char) : (posixSplit p).2 = tailOf p := rfl

theorem posixSplit_fst_segs (p : List Char) :
    splitSegs (posixSplit p).1 = splitSegs (headRawOf p) := by
  by_cases h : headRawOf p ≠ [] ∧ ¬ ((headRawOf p).all (· == '/'))
  · simp only [posixSplit, if_pos h]
    exact splitSegs_rstripSlashL _
  · simp only [posixSplit, if_neg h]

theorem posixSplit_segs (p : List Char) :
    splitSegs (posixSplit p).1 ++
      (if (posixSplit p).2 = [] then [] else [(posixSplit p).2]) =
      splitSegs p := by
  rw [posixSplit_snd, posixSplit_fst_segs]
  exact splitSegs_headRawOf p

theorem posixSplit_fst_length_lt (p : List Char)
    (h : (posixSplit p).1 ≠ p) : (posixSplit p).1.length < p.length := by
  have hlen : (headRawOf p).length + (tailOf p).length = p.length := by
    have := congrArg List.length (headRawOf_append_tailOf p)
    simpa using this
  by_cases ht : tailOf p = []
  · have hhr : headRawOf p = p := by
      have := headRawOf_append_tailOf p
      rw [ht] at this
      simpa using this
    by_cases hc : headRawOf p ≠ [] ∧ ¬ ((headRawOf p).all (· == '/'))
    · simp only [posixSplit, if_pos hc] at h ⊢
      rcases headRawOf_shape p with h0 | ⟨a, ha⟩
      · exact absurd h0 hc.1
      · rw [ha, rstripSlashL_append_slash]
        calc (rstripSlashL a).length ≤ a.length := rstripSlashL_length_le a
          _ < (headRawOf p).length := by rw [ha]; simp
          _ = p.length := by rw [hhr]
    · simp only [posixSplit, if_neg hc] at h
      exact absurd hhr h
  · have hlt : (headRawOf p).length < p.length := by
      have : (tailOf p).length ≠ 0 := by
        simpa [List.length_eq_zero] using ht
      omega
    by_cases hc : headRawOf p ≠ [] ∧ ¬ ((headRawOf p).all (· == '/'))
    · simp only [posixSplit, if_pos hc]
      exact lt_of_le_of_lt (rstripSlashL_length_le _) hlt
    · simp only [posixSplit, if_neg hc]
      exact hlt

theorem posixSplit_fixpoint (p : List Char)
    (h : (posixSplit p).1 = p) :
    (posixSplit p).2 = [] ∧ ∀ c ∈ p, c = '/' := by
  have ht : tailOf p = [] := by
    by_contra ht
    have := posixSplit_fst_length_lt p
    by_cases he : (posixSplit p).1 = p
    · have hlen : (headRawOf p).length + (tailOf p).length = p.length := by
        have := congrArg List.length (headRawOf_append_tailOf p)
        simpa using this
      have hlt : (headRawOf p).length < p.length := by
        have : (tailOf p).length ≠ 0 := by
          simpa [List.length_eq_zero] using ht
        omega
      have hle : (posixSplit p).1.length ≤ (headRawOf p).length := by
        by_cases hc : headRawOf p ≠ [] ∧ ¬ ((headRawOf p).all (· == '/'))
        · simp only [posixSplit, if_pos hc]
          exact rstripSlashL_length_le _
        · simp only [posixSplit, if_neg hc]
          exact le_rfl
      rw [he] at hle
      omega
    · exact he h
  refine ⟨by rw [posixSplit_snd, ht], ?_⟩
  have hhr : headRawOf p = p := by
    have := headRawOf_append_tailOf p
    rw [ht] at this
    simpa using this
  by_cases hc : headRawOf p ≠ [] ∧ ¬ ((headRawOf p).all (· == '/'))
  · exfalso
    simp only [posixSplit, if_pos hc] at h
    rcases headRawOf_shape p with h0 | ⟨a, ha⟩
    · exact hc.1 h0
    · have : (rstripSlashL (headRawOf p)).length < p.length := by
        rw [ha, rstripSlashL_append_slash]
        calc (rstripSlashL a).length ≤ a.length := rstripSlashL_length_le a
          _ < (headRawOf p).length := by rw [ha]; simp
          _ = p.length := by rw [hhr]
      rw [h] at this
      omega
  · rw [not_and_or] at hc
    rcases hc with hc | hc
    · have hnil : headRawOf p = [] := by simpa using hc
      rw [hhr] at hnil
      rw [hnil]
      intro c hcm
      simp at hcm
    · have hall : (headRawOf p).all (· == '/') := by simpa using hc
      rw [hhr] at hall
      intro c hcm
      have := List.all_eq_true.mp hall c hcm
      simpa using this


/-! ### The peel loop reaches the fixpoint and enumerates the segments -/

theorem peelF_spec :
    ∀ (fuel : Nat) (cur : List Char) (acc : List (List Char)),
      cur.length + 1 ≤ fuel →
      ∃ h ts, peelF fuel cur acc = h :: ts ∧ rstripSlashL h = [] ∧
        ts.filter (· != []) = splitSegs cur ++ acc.filter (· != []) := by
  intro fuel
  induction fuel with
  | zero => intro cur acc h; omega
  | succ fuel ih =>
    intro cur acc _
    by_cases hfix : (posixSplit cur).1 = cur
    · obtain ⟨ht, hall⟩ := posixSplit_fixpoint cur hfix
      refine ⟨(posixSplit cur).1, (posixSplit cur).2 :: acc, ?_, ?_, ?_⟩
      · simp only [peelF, if_pos hfix]
      · rw [hfix]
        exact rstripSlashL_all_slash cur hall
      · rw [ht, splitSegs_all_slash cur hall]
        simp
    · have hlt := posixSplit_fst_length_lt cur hfix
      rename_i hle
      obtain ⟨h, ts, heq, hr, hfil⟩ :=
        ih (posixSplit cur).1 ((posixSplit cur).2 :: acc) (by omega)
      refine ⟨h, ts, ?_, hr, ?_⟩
      · simp only [peelF, if_neg hfix]
        exact heq
      · rw [hfil, ← posixSplit_segs cur]
        by_cases h2 : (posixSplit cur).2 = [] <;>
          simp [List.filter_cons, h2]

theorem pathSplitL_eq_splitSegs (p : List Char) :
    pathSplitL p = splitSegs p := by
  obtain ⟨h, ts, heq, hr, hfil⟩ :=
    peelF_spec ((posixSplit p).1.length + 1) (posixSplit p).1
      [(posixSplit p).2] le_rfl
  have hz : pathSplitL p =
      (match peelF ((posixSplit p).1.length + 1) (posixSplit p).1
          [(posixSplit p).2] with
        | [] => []
        | h :: ts => (rstripSlashL h :: ts).filter (· != [])) := rfl
  rw [hz, heq]
  show (rstripSlashL h :: ts).filter (· != []) = splitSegs p
  rw [List.filter_cons, hr]
  simp only [bne_self_eq_false, Bool.false_eq_true, if_false]
  rw [hfil, ← posixSplit_segs p]
  by_cases h2 : (posixSplit p).2 = [] <;>
    simp [List.filter_cons, h2]

/-- The normalizer agrees everywhere with the spec-side splitter. -/
theorem path_split_eq_spec (s : String) : path_split s = pathSplitSpec s := by
  unfold path_split pathSplitSpec
  rw [pathSplitL_eq_splitSegs]

/-! ## Fuel bookkeeping

The fueled workers are supplied `nodeSize n` fuel, which is always enough;
the lemmas below let every proof use clean one-step recurrences instead of
fuel arithmetic. -/

theorem nodeSize_mk (cm : List (String × Node)) (st : Option State) :
    nodeSize (Node.mk cm st) = 1 + nodeListSize cm := rfl

theorem nodeListSize_cons (kc : String × Node) (rest : List (String × Node)) :
    nodeListSize (kc :: rest) = nodeSize kc.2 + 1 + nodeListSize rest := rfl

theorem nodeSize_pos (n : Node) : 1 ≤ nodeSize n := by
  cases n with
  | mk cm st => rw [nodeSize_mk]; omega

theorem child_size_le {e : String × Node} {cm : List (String × Node)}
    (h : e ∈ cm) : nodeSize e.2 < 1 + nodeListSize cm := by
  induction cm with
  | nil => simp at h
  | cons kc rest ih =>
    rw [nodeListSize_cons]
    rcases List.mem_cons.mp h with rfl | h
    · omega
    · have := ih h
      omega

theorem child_size_lt {e : String × Node} {cm : List (String × Node)}
    {st : Option State} (h : e ∈ cm) :
    nodeSize e.2 < nodeSize (Node.mk cm st) := by
  rw [nodeSize_mk]
  exact child_size_le h

theorem mem_sortChildren {e : String × Node} {cm : List (String × Node)} :
    e ∈ sortChildren cm ↔ e ∈ cm :=
  (List.perm_insertionSort _ cm).mem_iff

theorem flatMap_congr {α β : Type} {l : List α} {f g : α → List β}
    (h : ∀ a ∈ l, f a = g a) : l.flatMap f = l.flatMap g := by
  induction l with
  | nil => rfl
  | cons a l ih =>
    simp only [List.flatMap_cons, h a (by simp)]
    rw [ih fun x hx => h x (by simp [hx])]

theorem foldr_congr {α β : Type} {l : List α} {f g : α → β → β} {init : β}
    (h : ∀ a ∈ l, ∀ b, f a b = g a b) : l.foldr f init = l.foldr g init := by
  induction l with
  | nil => rfl
  | cons a l ih =>
    simp only [List.foldr_cons]
    rw [ih fun x hx => h x (by simp [hx]), h a (by simp)]

theorem iterRulesF_congr :
    ∀ {f1 : Nat} (f2 : Nat) (pe : Option State) (n : Node),
      nodeSize n ≤ f1 → nodeSize n ≤ f2 →
      iterRulesF f1 pe n = iterRulesF f2 pe n := by
  intro f1
  induction f1 using Nat.strong_induction_on with
  | _ f1 ih =>
    intro f2 pe n h1 h2
    obtain ⟨cm, st⟩ := n
    have hpos := nodeSize_pos (Node.mk cm st)
    cases f1 with
    | zero => omega
    | succ a =>
      cases f2 with
      | zero => omega
      | succ b =>
        simp only [iterRulesF]
        congr 1
        apply flatMap_congr
        intro sc hsc
        have hlt : nodeSize sc.2 < nodeSize (Node.mk cm st) :=
          child_size_lt (mem_sortChildren.mp hsc)
        congr 1
        exact ih a (by omega) b _ _ (by omega) (by omega)

theorem iterRulesFrom_eq (pe : Option State) (n : Node) :
    n.iterRulesFrom pe =
      (sortChildren n.childmap).flatMap
        (fun sc => rebase_rules sc.1 (sc.2.iterRulesFrom (some (effState pe n))))
      ++ ownRules pe n := by
  obtain ⟨cm, st⟩ := n
  show iterRulesF (nodeSize (Node.mk cm st)) pe (Node.mk cm st) = _
  rw [show nodeSize (Node.mk cm st) = nodeListSize cm + 1 by rw [nodeSize_mk]; omega]
  simp only [iterRulesF, Node.childmap_mk]
  congr 1
  apply flatMap_congr
  intro sc hsc
  congr 1
  have hlt : nodeSize sc.2 < 1 + nodeListSize cm :=
    child_size_le (mem_sortChildren.mp hsc)
  exact iterRulesF_congr _ _ _ (by omega) le_rfl

theorem iterNodesF_congr :
    ∀ {f1 : Nat} (f2 : Nat) (hp : Bool) (n : Node),
      nodeSize n ≤ f1 → nodeSize n ≤ f2 →
      iterNodesF f1 hp n = iterNodesF f2 hp n := by
  intro f1
  induction f1 using Nat.strong_induction_on with
  | _ f1 ih =>
    intro f2 hp n h1 h2
    obtain ⟨cm, st⟩ := n
    have hpos := nodeSize_pos (Node.mk cm st)
    cases f1 with
    | zero => omega
    | succ a =>
      cases f2 with
      | zero => omega
      | succ b =>
        simp only [iterNodesF]
        congr 1
        apply flatMap_congr
        intro sc hsc
        have hlt : nodeSize sc.2 < nodeSize (Node.mk cm st) :=
          child_size_lt (mem_sortChildren.mp hsc)
        congr 1
        exact ih a (by omega) b _ _ (by omega) (by omega)

theorem iterNodesFrom_eq (hp : Bool) (n : Node) :
    n.iterNodesFrom hp =
      (match n.state with
       | some st => [(st, if hp then none else some "")]
       | none => []) ++
      (sortChildren n.childmap).flatMap
        (fun sc => rebase_rules sc.1 (sc.2.iterNodesFrom true)) := by
  obtain ⟨cm, st⟩ := n
  show iterNodesF (nodeSize (Node.mk cm st)) hp (Node.mk cm st) = _
  rw [show nodeSize (Node.mk cm st) = nodeListSize cm + 1 by rw [nodeSize_mk]; omega]
  simp only [iterNodesF, Node.childmap_mk, Node.state_mk]
  congr 1
  apply flatMap_congr
  intro sc hsc
  congr 1
  have hlt : nodeSize sc.2 < 1 + nodeListSize cm :=
    child_size_le (mem_sortChildren.mp hsc)
  exact iterNodesF_congr _ _ _ (by omega) le_rfl

theorem pruneF_congr :
    ∀ {f1 : Nat} (f2 : Nat) (eff : State) (n : Node),
      nodeSize n ≤ f1 → nodeSize n ≤ f2 →
      pruneF f1 eff n = pruneF f2 eff n := by
  intro f1
  induction f1 using Nat.strong_induction_on with
  | _ f1 ih =>
    intro f2 eff n h1 h2
    obtain ⟨cm, st⟩ := n
    have hpos := nodeSize_pos (Node.mk cm st)
    cases f1 with
    | zero => omega
    | succ a =>
      cases f2 with
      | zero => omega
      | succ b =>
        simp only [pruneF]
        congr 1
        apply foldr_congr
        intro kc hkc acc
        have hlt : nodeSize kc.2 < nodeSize (Node.mk cm st) := child_size_lt hkc
        have hrec : pruneF a (effState (some eff) kc.2) kc.2 =
            pruneF b (effState (some eff) kc.2) kc.2 :=
          ih a (by omega) b _ _ (by omega) (by omega)
        simp only [hrec]

theorem pruneAux_eq (eff : State) (n : Node) :
    n.pruneAux eff =
      Node.mk
        (n.childmap.foldr
          (fun kc acc =>
            let c := kc.2.pruneAux (effState (some eff) kc.2)
            if c.state = some eff ∧ c.childmap.isEmpty then acc
            else (kc.1, c) :: acc)
          [])
        n.state := by
  obtain ⟨cm, st⟩ := n
  show pruneF (nodeSize (Node.mk cm st)) eff (Node.mk cm st) = _
  rw [show nodeSize (Node.mk cm st) = nodeListSize cm + 1 by rw [nodeSize_mk]; omega]
  simp only [pruneF, Node.childmap_mk, Node.state_mk]
  congr 1
  apply foldr_congr
  intro kc hkc acc
  have hlt : nodeSize kc.2 < 1 + nodeListSize cm := child_size_le hkc
  have hrec : pruneF (nodeListSize cm) (effState (some eff) kc.2) kc.2 =
      kc.2.pruneAux (effState (some eff) kc.2) :=
    pruneF_congr _ _ _ (by omega) le_rfl
  simp only [hrec]

/-! ## The sort order

`listLexLe` is a total preorder matching Python's string comparison; with
distinct keys the sorted child list is strictly ascending. -/

theorem char_eq_of_not_lt {a b : Char} (h1 : ¬ a < b) (h2 : ¬ b < a) :
    a = b :=
  le_antisymm (not_lt.mp h2) (not_lt.mp h1)

theorem listLexLe_total (a b : List Char) :
    listLexLe a b = true ∨ listLexLe b a = true := by
  induction a generalizing b with
  | nil => left; rfl
  | cons x xs ih =>
    cases b with
    | nil => right; rfl
    | cons y ys =>
      by_cases h1 : x < y
      · left; simp [listLexLe, h1]
      · by_cases h2 : y < x
        · right; simp [listLexLe, h2, h1]
        · rcases ih ys with h | h <;> [left; right] <;>
            simp [listLexLe, h1, h2, h]

theorem listLexLe_trans {a b c : List Char} (h1 : listLexLe a b = true)
    (h2 : listLexLe b c = true) : listLexLe a c = true := by
  induction a generalizing b c with
  | nil => rfl
  | cons x xs ih =>
    cases b with
    | nil => simp [listLexLe] at h1
    | cons y ys =>
      cases c with
      | nil => simp [listLexLe] at h2
      | cons z zs =>
        simp only [listLexLe] at h1 h2 ⊢
        by_cases hxy : x < y
        · by_cases hyz : y < z
          · simp [lt_trans hxy hyz]
          · by_cases hzy : z < y
            · simp [hyz, hzy] at h2
            · have : y = z := char_eq_of_not_lt hyz hzy
              subst this
              simp [hxy]
        · by_cases hyx : y < x
          · simp [hxy, hyx] at h1
          · have : x = y := char_eq_of_not_lt hxy hyx
            subst this
            by_cases hyz : x < z
            · simp [hyz]
            · by_cases hzy : z < x
              · simp [hyz, hzy] at h2
              · have : x = z := char_eq_of_not_lt hyz hzy
                subst this
                simp [hxy] at h1 h2 ⊢
                exact ih h1 h2

instance instKeyLeTrans :
    IsTrans (String × Node) (fun a b => strLeb a.1 b.1 = true) where
  trans _ _ _ h1 h2 := listLexLe_trans h1 h2

instance instKeyLeTotal :
    IsTotal (String × Node) (fun a b => strLeb a.1 b.1 = true) where
  total a b := listLexLe_total a.1.data b.1.data

theorem sortChildren_perm (cm : List (String × Node)) :
    List.Perm (sortChildren cm) cm :=
  List.perm_insertionSort _ cm

theorem sortChildren_sorted (cm : List (String × Node)) :
    List.Pairwise (fun a b => strLeb a.1 b.1 = true) (sortChildren cm) :=
  List.sorted_insertionSort _ cm

theorem strLtb_of_leb_ne {a b : String} (hle : strLeb a b = true)
    (hne : a ≠ b) : strLtb a b = true := by
  simp [strLtb, hle, hne]

theorem sortChildren_strict {cm : List (String × Node)}
    (h : (cm.map (fun kc => kc.1)).Nodup) :
    List.Pairwise (fun a b => strLtb a.1 b.1 = true) (sortChildren cm) := by
  have hperm : List.Perm ((sortChildren cm).map (fun kc => kc.1))
      (cm.map (fun kc => kc.1)) := (sortChildren_perm cm).map _
  have hnd : ((sortChildren cm).map (fun kc => kc.1)).Nodup :=
    hperm.nodup_iff.mpr h
  have hne : List.Pairwise (fun a b : String × Node => a.1 ≠ b.1)
      (sortChildren cm) := (List.pairwise_map).mp hnd
  have := (sortChildren_sorted cm).and hne
  exact this.imp fun hab => strLtb_of_leb_ne hab.1 hab.2

/-! ## Rebase facts -/

theorem rstripSlashL_no_slash (l : List Char) (h : ∀ c ∈ l, c ≠ '/') :
    rstripSlashL l = l := by
  unfold rstripSlashL
  rcases hr : l.reverse with _ | ⟨x, rest⟩
  · have hl : l = [] := by simpa using congrArg List.reverse hr
    subst hl
    rfl
  · have hx : x ∈ l := by
      have : x ∈ l.reverse := by rw [hr]; simp
      simpa using this
    rw [List.dropWhile_cons, if_neg (by simpa using h x hx)]
    conv_rhs => rw [← List.reverse_reverse l, hr]

theorem string_mk_data (s : String) : String.mk s.data = s := by
  cases s
  rfl

/-- For a segment with no separators (all child-map keys in well-formed
trees), rebasing a boundary (`None`) pattern yields exactly the segment. -/
theorem rebase_none_eq (pre : String) (h : ∀ c ∈ pre.data, c ≠ '/') :
    String.mk (rstripSlashL (pre ++ "/").data) = pre := by
  have hd : (pre ++ "/").data = pre.data ++ ['/'] := rfl
  rw [hd, rstripSlashL_append_slash, rstripSlashL_no_slash pre.data h,
    string_mk_data]

theorem rebase_none_eq2 (pre : String) (h : ∀ c ∈ pre.data, c ≠ '/') :
    String.mk (rstripSlashL (pre.data ++ ['/'])) = pre := by
  rw [rstripSlashL_append_slash, rstripSlashL_no_slash pre.data h, string_mk_data]

/-- `rebase_rules` is the per-rule pattern map the spec describes:
`None` becomes the bare segment, any other pattern gets `seg ++ "/"`
prepended. -/
theorem rebase_rules_map {m : Type} (pre : String)
    (h : ∀ c ∈ pre.data, c ≠ '/') (rules : List (m × Option String)) :
    rebase_rules pre rules =
      rules.map fun r =>
        (r.1, some (match r.2 with
          | none => pre
          | some q => pre ++ "/" ++ q)) := by
  unfold rebase_rules
  apply List.map_congr_left
  intro r _
  rcases r with ⟨a, _ | q⟩
  · show (a, some (String.mk (rstripSlashL (pre ++ "/").data))) = (a, some pre)
    rw [rebase_none_eq pre h]
  · rfl

/-! ## Well-formedness

Trees built by the target operations have child maps whose keys are
distinct, non-empty and separator-free; `Node.wf` checks this
recursively. -/

theorem all_congr {α : Type} {l : List α} {f g : α → Bool}
    (h : ∀ a ∈ l, f a = g a) : l.all f = l.all g := by
  induction l with
  | nil => rfl
  | cons a l ih =>
    simp only [List.all_cons, h a (by simp)]
    rw [ih fun x hx => h x (by simp [hx])]

theorem wfF_congr :
    ∀ {f1 : Nat} (f2 : Nat) (n : Node),
      nodeSize n ≤ f1 → nodeSize n ≤ f2 → wfF f1 n = wfF f2 n := by
  intro f1
  induction f1 using Nat.strong_induction_on with
  | _ f1 ih =>
    intro f2 n h1 h2
    obtain ⟨cm, st⟩ := n
    have hpos := nodeSize_pos (Node.mk cm st)
    cases f1 with
    | zero => omega
    | succ a =>
      cases f2 with
      | zero => omega
      | succ b =>
        simp only [wfF]
        congr 1
        apply all_congr
        intro kc hkc
        have hlt : nodeSize kc.2 < nodeSize (Node.mk cm st) := child_size_lt hkc
        congr 1
        exact ih a (by omega) b _ (by omega) (by omega)

theorem wf_eq (n : Node) :
    n.wf = (keysUniqueb (n.childmap.map (fun kc => kc.1)) &&
      n.childmap.all (fun kc => segOKb kc.1 && kc.2.wf)) := by
  obtain ⟨cm, st⟩ := n
  show wfF (nodeSize (Node.mk cm st)) (Node.mk cm st) = _
  rw [show nodeSize (Node.mk cm st) = nodeListSize cm + 1 by rw [nodeSize_mk]; omega]
  simp only [wfF, Node.childmap_mk]
  congr 1
  apply all_congr
  intro kc hkc
  have hlt : nodeSize kc.2 < 1 + nodeListSize cm := child_size_le hkc
  congr 1
  exact wfF_congr _ _ (by omega) le_rfl

theorem keysUniqueb_nodup {l : List String} (h : keysUniqueb l = true) :
    l.Nodup := by
  induction l with
  | nil => exact List.nodup_nil
  | cons k rest ih =>
    simp only [keysUniqueb, Bool.and_eq_true] at h
    refine List.nodup_cons.mpr ⟨?_, ih h.2⟩
    intro hk
    have := List.all_eq_true.mp h.1 k hk
    simp at this

theorem wf_keys_nodup {n : Node} (h : n.wf = true) :
    (n.childmap.map (fun kc => kc.1)).Nodup := by
  rw [wf_eq] at h
  simp only [Bool.and_eq_true] at h
  exact keysUniqueb_nodup h.1

theorem wf_child {n : Node} {kc : String × Node} (h : n.wf = true)
    (hm : kc ∈ n.childmap) : segOKb kc.1 = true ∧ kc.2.wf = true := by
  rw [wf_eq] at h
  simp only [Bool.and_eq_true] at h
  have := List.all_eq_true.mp h.2 kc hm
  simpa using this

theorem segOKb_no_slash {s : String} (h : segOKb s = true) :
    ∀ c ∈ s.data, c ≠ '/' := by
  simp only [segOKb, Bool.and_eq_true, List.all_eq_true] at h
  intro c hc
  have := h.2 c hc
  simpa using this

theorem segOKb_ne_empty {s : String} (h : segOKb s = true) : s ≠ "" := by
  simp only [segOKb, Bool.and_eq_true, bne_iff_ne] at h
  exact h.1

/-! ## Walking and updating: interaction lemmas -/

theorem findChild_eq_none {k : String} {cm : List (String × Node)} :
    findChild k cm = none ↔ ∀ kc ∈ cm, kc.1 ≠ k := by
  induction cm with
  | nil => simp [findChild]
  | cons kc rest ih =>
    by_cases h : kc.1 = k
    · simp [findChild, h]
    · simp [findChild, h, ih]

theorem findChild_map_upd {p : String} {f : Node → Node}
    {cm : List (String × Node)} {c : Node} (h : findChild p cm = some c) :
    findChild p (cm.map fun e => if e.1 = p then (e.1, f e.2) else e) =
      some (f c) := by
  induction cm with
  | nil => simp [findChild] at h
  | cons kc rest ih =>
    by_cases hk : kc.1 = p
    · simp [findChild, hk] at h
      simp [findChild, hk, h]
    · simp [findChild, hk] at h
      simp [findChild, hk, ih h]

theorem findChild_map_upd_ne {p k : String} {f : Node → Node}
    {cm : List (String × Node)} (hne : k ≠ p) :
    findChild k (cm.map fun e => if e.1 = p then (e.1, f e.2) else e) =
      findChild k cm := by
  induction cm with
  | nil => simp [findChild]
  | cons kc rest ih =>
    have hpk : p ≠ k := fun h => hne h.symm
    by_cases hk : kc.1 = p
    · simp [findChild, hk, hpk, ih]
    · by_cases hk2 : kc.1 = k
      · simp [findChild, hk, hk2, hne]
      · simp [findChild, hk, hk2, ih]

theorem findChild_append_none {k : String} {cm l : List (String × Node)}
    (h : findChild k cm = none) : findChild k (cm ++ l) = findChild k l := by
  induction cm with
  | nil => simp
  | cons kc rest ih =>
    by_cases hk : kc.1 = k
    · simp [findChild, hk] at h
    · simp [findChild, hk] at h ⊢
      exact ih h

theorem getStateFrom_newChain (st : State) :
    ∀ (ps : List String) (inh : State),
      getStateFrom inh (newChain st ps) ps = st := by
  intro ps
  induction ps with
  | nil => intro inh; simp [newChain, getStateFrom]
  | cons p ps ih =>
    intro inh
    simp only [newChain, getStateFrom, findChild, if_pos rfl, Node.childmap_mk,
      Node.state_mk, Option.getD_none]
    exact ih inh

theorem getStateFrom_ensureSet_self (st : State) :
    ∀ (parts : List String) (n : Node) (inh : State),
      getStateFrom inh (ensureSet st parts n) parts = st := by
  intro parts
  induction parts with
  | nil => intro n inh; simp [ensureSet, getStateFrom]
  | cons p ps ih =>
    intro n inh
    rcases hf : findChild p n.childmap with _ | c
    · simp only [ensureSet, hf, getStateFrom, Node.childmap_mk, Node.state_mk]
      rw [findChild_append_none hf]
      simp only [findChild, if_pos rfl]
      exact getStateFrom_newChain st ps _
    · simp only [ensureSet, hf, getStateFrom, Node.childmap_mk, Node.state_mk]
      rw [findChild_map_upd hf]
      exact ih _ _

/-- After `evict(p)` the state at `p` is `Evicted`, whatever the tree was:
the explicit child state overrides any inherited state. -/
theorem getState_evict (p : String) (n : Node) :
    getState (evict p n) p = State.evicted := by
  unfold evict
  by_cases h : getState n p = State.evicted
  · rw [if_pos h]; exact h
  · rw [if_neg h]
    exact getStateFrom_ensureSet_self _ _ _ _

/-- After `include(p)` the state at `p` is `Included`. -/
theorem getState_include (p : String) (n : Node) :
    getState (incl p n) p = State.included := by
  unfold incl
  by_cases h : getState n p = State.included
  · rw [if_pos h]; exact h
  · rw [if_neg h]
    exact getStateFrom_ensureSet_self _ _ _ _

theorem evict_of_evicted {p : String} {n : Node}
    (h : getState n p = State.evicted) : evict p n = n := by
  unfold evict
  rw [if_pos h]

theorem include_of_included {p : String} {n : Node}
    (h : getState n p = State.included) : incl p n = n := by
  unfold incl
  rw [if_pos h]

theorem evict_idem (p : String) (n : Node) :
    evict p (evict p n) = evict p n :=
  evict_of_evicted (getState_evict p n)

theorem include_idem (p : String) (n : Node) :
    incl p (incl p n) = incl p n :=
  include_of_included (getState_include p n)

/-! ## Well-formedness preservation -/

theorem string_mk_ne_empty {l : List Char} (h : l ≠ []) :
    (String.mk l) ≠ "" := by
  intro hc
  apply h
  have : (String.mk l).data = ("" : String).data := by rw [hc]
  simpa using this

theorem path_split_segOK (s : String) :
    ∀ seg ∈ path_split s, segOKb seg = true := by
  rw [path_split_eq_spec]
  intro seg hseg
  unfold pathSplitSpec at hseg
  obtain ⟨l, hl, rfl⟩ := List.mem_map.mp hseg
  obtain ⟨hne, hns⟩ := splitSegs_mem hl
  simp only [segOKb, Bool.and_eq_true, List.all_eq_true]
  constructor
  · simpa using string_mk_ne_empty hne
  · intro c hc
    simpa using hns c hc

theorem wf_state_irrel (cm : List (String × Node)) (st st2 : Option State) :
    (Node.mk cm st).wf = (Node.mk cm st2).wf := by
  rw [wf_eq, wf_eq]
  simp

theorem wf_newChain (st : State) :
    ∀ (ps : List String), (∀ p ∈ ps, segOKb p = true) →
      (newChain st ps).wf = true := by
  intro ps
  induction ps with
  | nil =>
    intro _
    rw [wf_eq]
    rfl
  | cons p ps ih =>
    intro h
    rw [wf_eq]
    have h1 := h p (by simp)
    have h2 := ih fun q hq => h q (by simp [hq])
    simp [newChain, keysUniqueb, h1, h2]

theorem keysUniqueb_append_singleton {l : List String} {k : String}
    (h : keysUniqueb l = true) (hk : ∀ x ∈ l, x ≠ k) :
    keysUniqueb (l ++ [k]) = true := by
  induction l with
  | nil => rfl
  | cons a rest ih =>
    simp only [keysUniqueb, Bool.and_eq_true, List.all_eq_true] at h ⊢
    refine ⟨?_, ih h.2 fun x hx => hk x (by simp [hx])⟩
    intro x hx
    rcases List.mem_append.mp hx with hx | hx
    · exact h.1 x hx
    · have : x = k := by simpa using hx
      subst this
      have : a ≠ x := fun hax => (hk a (by simp)) hax
      simpa using fun hxa => this hxa.symm

theorem wf_ensureSet (st : State) :
    ∀ (parts : List String) (n : Node), n.wf = true →
      (∀ p ∈ parts, segOKb p = true) → (ensureSet st parts n).wf = true := by
  intro parts
  induction parts with
  | nil =>
    intro n hwf _
    show (Node.mk n.childmap (some st)).wf = true
    rw [wf_state_irrel n.childmap (some st) n.state]
    cases n
    exact hwf
  | cons p ps ih =>
    intro n hwf hseg
    rcases hf : findChild p n.childmap with _ | c
    · simp only [ensureSet]
      rw [hf]
      show (Node.mk (n.childmap ++ [(p, newChain st ps)]) n.state).wf = true
      rw [wf_eq]
      have hwk : keysUniqueb ((n.childmap.map fun kc => kc.1) ++ [p]) = true := by
        apply keysUniqueb_append_singleton
        · rw [wf_eq] at hwf
          simp only [Bool.and_eq_true] at hwf
          exact hwf.1
        · intro x hx
          obtain ⟨kc, hkc, rfl⟩ := List.mem_map.mp hx
          exact (findChild_eq_none.mp hf) kc hkc
      have hall : (n.childmap ++ [(p, newChain st ps)]).all
          (fun kc => segOKb kc.1 && kc.2.wf) = true := by
        rw [List.all_append]
        simp only [Bool.and_eq_true]
        constructor
        · rw [List.all_eq_true]
          intro kc hkc
          have := wf_child hwf hkc
          simp [this.1, this.2]
        · simp [hseg p (by simp),
            wf_newChain st ps fun q hq => hseg q (by simp [hq])]
      simp [hwk, hall]
    · simp only [ensureSet]
      rw [hf]
      show (Node.mk (n.childmap.map fun e =>
        if e.1 = p then (e.1, ensureSet st ps e.2) else e) n.state).wf = true
      rw [wf_eq]
      simp only [Node.childmap_mk, Bool.and_eq_true]
      have hkeys : ((n.childmap.map fun e =>
          if e.1 = p then (e.1, ensureSet st ps e.2) else e).map fun kc => kc.1) =
          n.childmap.map fun kc => kc.1 := by
        rw [List.map_map]
        apply List.map_congr_left
        intro e _
        by_cases he : e.1 = p <;> simp [he]
      refine ⟨?_, ?_⟩
      · rw [hkeys]
        rw [wf_eq] at hwf
        simp only [Bool.and_eq_true] at hwf
        exact hwf.1
      · rw [List.all_eq_true]
        intro kc hkc
        obtain ⟨e, he, hkc⟩ := List.mem_map.mp hkc
        have hew := wf_child hwf he
        by_cases hp : e.1 = p
        · rw [if_pos hp] at hkc
          subst hkc
          simp only [Bool.and_eq_true]
          exact ⟨hew.1, ih e.2 hew.2 fun q hq => hseg q (by simp [hq])⟩
        · rw [if_neg hp] at hkc
          subst hkc
          simp [hew.1, hew.2]

theorem wf_newTarget : newTarget.wf = true := rfl

theorem wf_evict (p : String) {n : Node} (h : n.wf = true) :
    (evict p n).wf = true := by
  unfold evict
  by_cases hc : getState n p = State.evicted
  · rw [if_pos hc]; exact h
  · rw [if_neg hc]
    exact wf_ensureSet _ _ _ h (path_split_segOK p)

theorem wf_include (p : String) {n : Node} (h : n.wf = true) :
    (incl p n).wf = true := by
  unfold incl
  by_cases hc : getState n p = State.included
  · rw [if_pos hc]; exact h
  · rw [if_neg hc]
    exact wf_ensureSet _ _ _ h (path_split_segOK p)

/-- Every reachable tree is well-formed. -/
theorem reachable_wf {n : Node} (h : Reachable n) : n.wf = true := by
  induction h with
  | init => exact wf_newTarget
  | evictStep p _ ih => exact wf_evict p ih
  | includeStep p _ ih => exact wf_include p ih

/-! ## Claim C1: the boundary rule of an effectively evicted inner node -/

theorem effState_some {n : Node} {pe : Option State} {s : State}
    (h : n.state = some s) : effState pe n = s := by
  unfold effState
  rw [h]

/-- C1: a node `N` with children and effective state `Evicted` (whose
explicit state then cannot be `Included`) emits, after all of its
children's rebased blocks, the boundary `(Exclude, "*")` — rendered under
`N`'s path by the enclosing rebases, or bare at the root — followed by
`(Include, N's own path)` exactly when `N` has a parent whose effective
state is `Evicted` (`pe = some evicted`). -/
theorem c1_evicted_boundary (pe : Option State) (n : Node)
    (hne : n.childmap.isEmpty = false)
    (heff : effState pe n = State.evicted) :
    n.iterRulesFrom pe =
      (sortChildren n.childmap).flatMap
        (fun sc => rebase_rules sc.1 (sc.2.iterRulesFrom (some State.evicted)))
      ++ ("-", some "*") ::
        (if pe = some State.evicted then [("+", none)] else [])
    ∧ n.state ≠ some State.included
    ∧ ∀ (seg m : String), (∀ c ∈ seg.data, c ≠ '/') →
        rebase_rules seg [(m, some "*")] = [(m, some (seg ++ "/*"))] := by
  have hsne : n.state ≠ some State.included := by
    intro hs
    have h2 : effState pe n = State.included := effState_some hs
    rw [heff] at h2
    simp at h2
  have how : ownRules pe n =
      ("-", some "*") ::
        (if pe = some State.evicted then [("+", none)] else []) := by
    unfold ownRules
    rw [if_neg hsne, if_pos ⟨hne, heff⟩]
  refine ⟨?_, hsne, ?_⟩
  · rw [iterRulesFrom_eq, heff, how]
  · intro seg m _
    unfold rebase_rules
    simp only [List.map_cons, List.map_nil]
    have : seg ++ "/" ++ "*" = seg ++ "/*" := by
      rw [String.append_assoc]
      rfl
    rw [this]

theorem c1_evicted_boundary_witness :
    (exC1.childmap.isEmpty = false ∧
      effState (some State.evicted) exC1 = State.evicted)
    ∧ (exC1.iterRulesFrom (some State.evicted) =
        (sortChildren exC1.childmap).flatMap
          (fun sc => rebase_rules sc.1 (sc.2.iterRulesFrom (some State.evicted)))
        ++ ("-", some "*") ::
          (if (some State.evicted : Option State) = some State.evicted then
            [("+", none)] else [])
      ∧ exC1.state ≠ some State.included
      ∧ ∀ (seg m : String), (∀ c ∈ seg.data, c ≠ '/') →
          rebase_rules seg [(m, some "*")] = [(m, some (seg ++ "/*"))]) :=
  ⟨⟨rfl, rfl⟩, c1_evicted_boundary (some State.evicted) exC1 rfl rfl⟩

/-! ## Claim C2: child processing order and rebasing -/

/-- C2: on a well-formed tree the compiler processes children in strictly
ascending lexicographic segment order (the sorted child list is a
permutation of the child map and pairwise strictly ascending), emits each
child's complete rebased block contiguously and in the child's own order
before the next child's block, all before the node's own boundary rules;
rebasing maps each rule pattern by prefixing `<segment>/`, a boundary
(`None`) pattern becoming exactly the segment and any other pattern
keeping its suffix after the prefix. -/
theorem c2_child_order_rebase (pe : Option State) (n : Node)
    (h : n.wf = true) :
    n.iterRulesFrom pe =
      (sortChildren n.childmap).flatMap
        (fun sc => (sc.2.iterRulesFrom (some (effState pe n))).map
          (fun r => (r.1, some (match r.2 with
            | none => sc.1
            | some q => sc.1 ++ "/" ++ q))))
      ++ ownRules pe n
    ∧ List.Pairwise (fun a b => strLtb a.1 b.1 = true) (sortChildren n.childmap)
    ∧ List.Perm (sortChildren n.childmap) n.childmap := by
  refine ⟨?_, sortChildren_strict (wf_keys_nodup h), sortChildren_perm _⟩
  rw [iterRulesFrom_eq]
  congr 1
  apply flatMap_congr
  intro sc hsc
  have hseg := (wf_child h (mem_sortChildren.mp hsc)).1
  exact rebase_rules_map sc.1 (segOKb_no_slash hseg) _

theorem c2_child_order_rebase_witness :
    targetC3.wf = true
    ∧ (targetC3.iterRulesFrom none =
        (sortChildren targetC3.childmap).flatMap
          (fun sc => (sc.2.iterRulesFrom (some (effState none targetC3))).map
            (fun r => (r.1, some (match r.2 with
              | none => sc.1
              | some q => sc.1 ++ "/" ++ q))))
        ++ ownRules none targetC3
      ∧ List.Pairwise (fun a b => strLtb a.1 b.1 = true)
          (sortChildren targetC3.childmap)
      ∧ List.Perm (sortChildren targetC3.childmap) targetC3.childmap) :=
  ⟨rfl, c2_child_order_rebase none targetC3 rfl⟩

/-! ## Claim C3: the complex scenario -/

/-- C3: starting from a target whose root is explicitly `Included`
(obtained from a fresh target by `include("/")`), the call sequence
`evict("A"); include("A/B/C"); evict("A/B/C/D"); include("A/E")` compiles
to exactly the six rules of the scenario, and flattens to exactly its five
`(state, path)` entries, in order. -/
theorem c3_complex_scenario :
    incl "/" newTarget = rootIncluded
    ∧ targetC3.iter_rules =
        [("-", some "A/B/C/D"), ("+", some "A/B/C"), ("-", some "A/B/*"),
         ("+", some "A/B"), ("+", some "A/E"), ("-", some "A/*")]
    ∧ targetC3.iter_nodes =
        [(State.included, some ""), (State.evicted, some "A"),
         (State.included, some "A/B/C"), (State.evicted, some "A/B/C/D"),
         (State.included, some "A/E")] :=
  ⟨rfl, rfl, rfl⟩

/-! ## Claim C8: idempotence of evict and include -/

/-- C8: when `get_state(p)` is already `Evicted`, `evict(p)` returns the
tree unchanged, so `evict(p); evict(p)` equals a single `evict(p)` as
trees (hence in every observation, `get_state` and rule output included);
symmetrically for `include`. -/
theorem c8_evict_include_idempotent (p : String) (n : Node) :
    (getState n p = State.evicted → evict p n = n)
    ∧ evict p (evict p n) = evict p n
    ∧ (getState n p = State.included → incl p n = n)
    ∧ incl p (incl p n) = incl p n :=
  ⟨evict_of_evicted, evict_idem p n, include_of_included, include_idem p n⟩

theorem c8_evict_include_idempotent_witness :
    (getState newTarget "A" = State.evicted
      ∧ evict "A" newTarget = newTarget
      ∧ evict "A" (evict "A" newTarget) = evict "A" newTarget)
    ∧ (getState rootIncluded "A" = State.included
      ∧ incl "A" rootIncluded = rootIncluded
      ∧ incl "A" (incl "A" rootIncluded) = incl "A" rootIncluded) :=
  ⟨⟨rfl, (c8_evict_include_idempotent "A" newTarget).1 rfl,
    (c8_evict_include_idempotent "A" newTarget).2.1⟩,
   ⟨rfl, (c8_evict_include_idempotent "A" rootIncluded).2.2.1 rfl,
    (c8_evict_include_idempotent "A" rootIncluded).2.2.2⟩⟩

/-! ## Claim C9: totality and shape of the path normalizer -/

/-- C9: `path_split` is total by construction and agrees on every input
string with the specification splitter (split on the separator, discard
empty segments, preserve order, leave `.`/`..` untouched); every returned
segment is non-empty, the empty string splits to the empty sequence, and
any string of only separators also splits to the empty sequence. -/
theorem c9_path_split_total (s : String) :
    path_split s = pathSplitSpec s
    ∧ (∀ seg ∈ path_split s, seg ≠ "")
    ∧ path_split "" = []
    ∧ ((∀ c ∈ s.data, c = '/') → path_split s = []) := by
  refine ⟨path_split_eq_spec s, ?_, rfl, ?_⟩
  · intro seg hseg
    exact segOKb_ne_empty (path_split_segOK s seg hseg)
  · intro hall
    rw [path_split_eq_spec]
    unfold pathSplitSpec
    rw [splitSegs_all_slash s.data hall]
    rfl

theorem c9_path_split_total_witness :
    (∀ c ∈ ("///" : String).data, c = '/') ∧ path_split "///" = [] :=
  ⟨by decide, (c9_path_split_total "///").2.2.2 (by decide)⟩

/-! ## Pruning facts -/

theorem pruneAux_state (eff : State) (n : Node) :
    (n.pruneAux eff).state = n.state := by
  rw [pruneAux_eq]
  rfl

theorem effState_some_getD (e : State) (n : Node) :
    effState (some e) n = n.state.getD e := by
  unfold effState
  cases n.state <;> rfl

theorem effState_congr_state {pe : Option State} {a b : Node}
    (h : a.state = b.state) : effState pe a = effState pe b := by
  unfold effState
  rw [h]

theorem pruneEntry_none {eff : State} {kc : String × Node}
    (h : (kc.2.pruneAux (effState (some eff) kc.2)).state = some eff ∧
      (kc.2.pruneAux (effState (some eff) kc.2)).childmap.isEmpty) :
    pruneEntry eff kc = none := by
  unfold pruneEntry
  rw [if_pos h]

theorem pruneEntry_some {eff : State} {kc : String × Node}
    (h : ¬((kc.2.pruneAux (effState (some eff) kc.2)).state = some eff ∧
      (kc.2.pruneAux (effState (some eff) kc.2)).childmap.isEmpty)) :
    pruneEntry eff kc = some (kc.1, kc.2.pruneAux (effState (some eff) kc.2)) := by
  unfold pruneEntry
  rw [if_neg h]

theorem pruneEntry_key {eff : State} {kc r : String × Node}
    (h : pruneEntry eff kc = some r) : r.1 = kc.1 := by
  have h2 : (if (kc.2.pruneAux (effState (some eff) kc.2)).state = some eff ∧
      (kc.2.pruneAux (effState (some eff) kc.2)).childmap.isEmpty then none
      else some (kc.1, kc.2.pruneAux (effState (some eff) kc.2))) = some r := h
  by_cases hc : (kc.2.pruneAux (effState (some eff) kc.2)).state = some eff ∧
      (kc.2.pruneAux (effState (some eff) kc.2)).childmap.isEmpty
  · rw [if_pos hc] at h2
    exact absurd h2 (by simp)
  · rw [if_neg hc] at h2
    have := (Option.some.injEq _ _).mp h2
    rw [← this]

theorem pruneAux_childmap (eff : State) (n : Node) :
    (n.pruneAux eff).childmap = n.childmap.filterMap (pruneEntry eff) := by
  rw [pruneAux_eq]
  simp only [Node.childmap_mk]
  induction n.childmap with
  | nil => rfl
  | cons kc rest ih =>
    simp only [List.foldr_cons, List.filterMap_cons, ih]
    by_cases h : (kc.2.pruneAux (effState (some eff) kc.2)).state = some eff ∧
        (kc.2.pruneAux (effState (some eff) kc.2)).childmap.isEmpty
    · rw [if_pos h, pruneEntry_none h]
    · rw [if_neg h, pruneEntry_some h]

theorem findChild_filterMap_none {p : String} {cm : List (String × Node)}
    {f : String × Node → Option (String × Node)}
    (hkey : ∀ kc r, f kc = some r → r.1 = kc.1)
    (h : findChild p cm = none) : findChild p (cm.filterMap f) = none := by
  induction cm with
  | nil => rfl
  | cons kc rest ih =>
    simp only [findChild] at h
    by_cases hk : kc.1 = p
    · simp [hk] at h
    · rw [if_neg hk] at h
      rw [List.filterMap_cons]
      rcases hf : f kc with _ | r
      · exact ih h
      · simp only [findChild]
        rw [if_neg (by rw [hkey kc r hf]; exact hk)]
        exact ih h

theorem findChild_pruned (eff : State) (p : String) :
    ∀ (cm : List (String × Node)),
      (cm.map (fun kc => kc.1)).Nodup →
      findChild p (cm.filterMap (pruneEntry eff)) =
        (match findChild p cm with
         | none => none
         | some c =>
           if (c.pruneAux (effState (some eff) c)).state = some eff ∧
               (c.pruneAux (effState (some eff) c)).childmap.isEmpty then none
           else some (c.pruneAux (effState (some eff) c))) := by
  intro cm
  induction cm with
  | nil => intro _; rfl
  | cons kc rest ih =>
    intro hnd
    simp only [List.map_cons, List.nodup_cons] at hnd
    rw [List.filterMap_cons]
    by_cases hk : kc.1 = p
    · by_cases hcond : (kc.2.pruneAux (effState (some eff) kc.2)).state = some eff ∧
          (kc.2.pruneAux (effState (some eff) kc.2)).childmap.isEmpty
      · rw [pruneEntry_none hcond]
        have hrest : findChild p rest = none := by
          rw [findChild_eq_none]
          intro e he hep
          exact hnd.1 (by rw [hk, ← hep]; exact List.mem_map_of_mem _ he)
        rw [findChild_filterMap_none (fun a r hr => pruneEntry_key hr) hrest]
        simp only [findChild, if_pos hk]
        rw [if_pos hcond]
      · rw [pruneEntry_some hcond]
        simp only [findChild, if_pos hk]
        rw [if_neg hcond]
    · by_cases hcond : (kc.2.pruneAux (effState (some eff) kc.2)).state = some eff ∧
          (kc.2.pruneAux (effState (some eff) kc.2)).childmap.isEmpty
      · rw [pruneEntry_none hcond]
        rw [ih hnd.2]
        simp only [findChild, if_neg hk]
      · rw [pruneEntry_some hcond]
        simp only [findChild, if_neg hk]
        exact ih hnd.2

theorem pruneEntry_none_cond {eff : State} {kc : String × Node}
    (h : pruneEntry eff kc = none) :
    (kc.2.pruneAux (effState (some eff) kc.2)).state = some eff ∧
      (kc.2.pruneAux (effState (some eff) kc.2)).childmap.isEmpty := by
  by_cases hc : (kc.2.pruneAux (effState (some eff) kc.2)).state = some eff ∧
      (kc.2.pruneAux (effState (some eff) kc.2)).childmap.isEmpty
  · exact hc
  · rw [pruneEntry_some hc] at h
    exact absurd h (by simp)

theorem findChild_some_mem {p : String} {cm : List (String × Node)} {c : Node}
    (h : findChild p cm = some c) : (p, c) ∈ cm := by
  induction cm with
  | nil => simp [findChild] at h
  | cons kc rest ih =>
    by_cases hk : kc.1 = p
    · simp only [findChild, if_pos hk] at h
      have : kc = (p, c) := by
        have h2 := (Option.some.injEq _ _).mp h
        calc kc = (kc.1, kc.2) := rfl
          _ = (p, c) := by rw [hk, h2]
      rw [← this]
      exact List.mem_cons_self kc rest
    · simp only [findChild, if_neg hk] at h
      exact List.mem_cons_of_mem kc (ih h)

/-- A subtree whose node carries the surrounding effective state and which
prunes away completely resolves to that state everywhere below it. -/
theorem getStateFrom_pruned_empty :
    ∀ (ps : List String) (c : Node) (eff : State),
      c.state = some eff →
      (c.pruneAux (effState (some eff) c)).childmap.isEmpty →
      getStateFrom eff c ps = eff := by
  intro ps
  induction ps with
  | nil =>
    intro c eff hs _
    simp [getStateFrom, hs]
  | cons p ps ih =>
    intro c eff hs hempty
    have heff : effState (some eff) c = eff := by
      rw [effState_some_getD, hs]
      rfl
    simp only [getStateFrom]
    rcases hf : findChild p c.childmap with _ | k
    · simp [hs]
    · rw [hs]
      simp only [Option.getD_some]
      have hmem := findChild_some_mem hf
      have hnil : (c.pruneAux (effState (some eff) c)).childmap = [] := by
        rw [List.isEmpty_iff] at hempty
        exact hempty
      rw [pruneAux_childmap, heff] at hnil
      have hall := List.filterMap_eq_nil_iff.mp hnil
      have hcond := pruneEntry_none_cond (hall (p, k) hmem)
      have hks : k.state = some eff := by
        have := hcond.1
        rw [pruneAux_state] at this
        exact this
      exact ih k eff hks hcond.2

/-- Pruning never changes the resolved state at any path. -/
theorem getStateFrom_pruneAux :
    ∀ (parts : List String) (n : Node) (inh : State), n.wf = true →
      getStateFrom inh (n.pruneAux (n.state.getD inh)) parts =
        getStateFrom inh n parts := by
  intro parts
  induction parts with
  | nil =>
    intro n inh _
    simp [getStateFrom, pruneAux_state]
  | cons p ps ih =>
    intro n inh hwf
    have hnd := wf_keys_nodup hwf
    cases hf : findChild p n.childmap with
    | none =>
      simp only [getStateFrom, pruneAux_state, pruneAux_childmap,
        findChild_pruned (n.state.getD inh) p n.childmap hnd, hf]
    | some c =>
      simp only [getStateFrom, pruneAux_state, pruneAux_childmap,
        findChild_pruned (n.state.getD inh) p n.childmap hnd, hf]
      by_cases hcond : c.state = some (n.state.getD inh) ∧
          (List.filterMap (pruneEntry (effState (some (n.state.getD inh)) c))
            c.childmap).isEmpty = true
      · rw [if_pos hcond]
        have hempty : (c.pruneAux (effState (some (n.state.getD inh)) c)).childmap.isEmpty := by
          rw [pruneAux_childmap]
          exact hcond.2
        exact
          (getStateFrom_pruned_empty ps c (n.state.getD inh) hcond.1 hempty).symm
      · rw [if_neg hcond]
        have hcw := (wf_child hwf (findChild_some_mem hf)).2
        rw [effState_some_getD]
        exact ih c (n.state.getD inh) hcw

/-! ## Invariant I2 after pruning -/

theorem checkI2F_congr :
    ∀ {f1 : Nat} (f2 : Nat) (eff : State) (n : Node),
      nodeSize n ≤ f1 → nodeSize n ≤ f2 → checkI2F f1 eff n = checkI2F f2 eff n := by
  intro f1
  induction f1 using Nat.strong_induction_on with
  | _ f1 ih =>
    intro f2 eff n h1 h2
    obtain ⟨cm, st⟩ := n
    have hpos := nodeSize_pos (Node.mk cm st)
    cases f1 with
    | zero => omega
    | succ a =>
      cases f2 with
      | zero => omega
      | succ b =>
        simp only [checkI2F]
        apply all_congr
        intro kc hkc
        have hlt : nodeSize kc.2 < nodeSize (Node.mk cm st) := child_size_lt hkc
        congr 1
        exact ih a (by omega) b _ _ (by omega) (by omega)

theorem checkI2_eq (eff : State) (n : Node) :
    n.checkI2 eff = n.childmap.all (fun kc =>
      (!(decide (kc.2.state = some eff) && kc.2.childmap.isEmpty)) &&
      kc.2.checkI2 (effState (some eff) kc.2)) := by
  obtain ⟨cm, st⟩ := n
  show checkI2F (nodeSize (Node.mk cm st)) eff (Node.mk cm st) = _
  rw [show nodeSize (Node.mk cm st) = nodeListSize cm + 1 by rw [nodeSize_mk]; omega]
  simp only [checkI2F, Node.childmap_mk]
  apply all_congr
  intro kc hkc
  have hlt : nodeSize kc.2 < 1 + nodeListSize cm := child_size_le hkc
  congr 1
  exact checkI2F_congr _ _ _ (by omega) le_rfl

/-- After pruning below effective state `eff`, invariant I2 holds. -/
theorem pruneAux_checkI2 :
    ∀ (N : Nat) (n : Node) (eff : State), nodeSize n ≤ N →
      (n.pruneAux eff).checkI2 eff = true := by
  intro N
  induction N using Nat.strong_induction_on with
  | _ N ih =>
    intro n eff hle
    rw [checkI2_eq, List.all_eq_true]
    intro e hmem
    rw [pruneAux_childmap] at hmem
    obtain ⟨kc, hkc, hfe⟩ := List.mem_filterMap.mp hmem
    by_cases hcond : (kc.2.pruneAux (effState (some eff) kc.2)).state = some eff ∧
        (kc.2.pruneAux (effState (some eff) kc.2)).childmap.isEmpty
    · rw [pruneEntry_none hcond] at hfe
      exact absurd hfe (by simp)
    · rw [pruneEntry_some hcond] at hfe
      have he : e = (kc.1, kc.2.pruneAux (effState (some eff) kc.2)) :=
        ((Option.some.injEq _ _).mp hfe).symm
      subst he
      have hb : (decide ((kc.2.pruneAux (effState (some eff) kc.2)).state = some eff) &&
          (kc.2.pruneAux (effState (some eff) kc.2)).childmap.isEmpty) = false := by
        by_cases h1 : (kc.2.pruneAux (effState (some eff) kc.2)).state = some eff
        · have h2 : (kc.2.pruneAux (effState (some eff) kc.2)).childmap.isEmpty = false := by
            by_cases h2 : (kc.2.pruneAux (effState (some eff) kc.2)).childmap.isEmpty
            · exact absurd ⟨h1, h2⟩ hcond
            · simpa using h2
          simp [h1, h2]
        · simp [h1]
      have hrec : (kc.2.pruneAux (effState (some eff) kc.2)).checkI2
          (effState (some eff) (kc.2.pruneAux (effState (some eff) kc.2))) = true := by
        have hlt : nodeSize kc.2 < nodeSize n := by
          obtain ⟨cm, st⟩ := n
          exact child_size_lt hkc
        rw [effState_congr_state (pruneAux_state (effState (some eff) kc.2) kc.2)]
        exact ih (nodeSize kc.2) (by omega) kc.2 (effState (some eff) kc.2) le_rfl
      simp only [hb, Bool.not_false, Bool.true_and]
      exact hrec

/-! ## Claim C5: prune never changes resolved states -/

/-- C5: for every well-formed tree and every path string, `get_state` is
unchanged by `prune()`. -/
theorem c5_prune_preserves_get_state (n : Node) (hwf : n.wf = true)
    (p : String) : getState n.pruneTop p = getState n p := by
  unfold getState Node.pruneTop
  have he : effState none n = n.state.getD State.included := by
    unfold effState
    cases n.state <;> rfl
  rw [he]
  exact getStateFrom_pruneAux (path_split p) n State.included hwf

theorem c5_prune_preserves_get_state_witness :
    targetC3.wf = true ∧
      getState targetC3.pruneTop "A/B/C/D/X" = getState targetC3 "A/B/C/D/X" :=
  ⟨rfl, c5_prune_preserves_get_state targetC3 rfl "A/B/C/D/X"⟩

/-! ## Claim C6: prune establishes invariant I2 -/

/-- C6: immediately after `prune()` the tree satisfies I2 — no non-root
node carries an explicit state equal to its parent's effective state while
having no children. -/
theorem c6_prune_establishes_I2 (n : Node) :
    n.pruneTop.checkI2 (effState none n.pruneTop) = true := by
  unfold Node.pruneTop
  rw [effState_congr_state (pruneAux_state (effState none n) n)]
  exact pruneAux_checkI2 (nodeSize n) n (effState none n) le_rfl

/-! ## Claim C10: prune removes only explicitly stated nodes -/

/-- C10: a child without an explicit state is never removed by `prune`
(it reappears, itself pruned, in the pruned child map), so the pruned tree
is not necessarily node-minimal: the reachable tree `exC10` still contains
the childless stateless node `"A"` after pruning. -/
theorem c10_prune_keeps_stateless (eff : State) (n : Node) (k : String)
    (c : Node) (hm : (k, c) ∈ n.childmap) (hs : c.state = none) :
    (k, c.pruneAux (effState (some eff) c)) ∈ (n.pruneAux eff).childmap
    ∧ exC10.pruneTop = Node.mk [("A", Node.mk [] none)] (some State.included)
    ∧ Reachable exC10 := by
  refine ⟨?_, rfl, ?_⟩
  · rw [pruneAux_childmap]
    apply List.mem_filterMap.mpr
    refine ⟨(k, c), hm, ?_⟩
    rw [pruneEntry_some ?_]
    intro hcond
    have := hcond.1
    rw [pruneAux_state] at this
    rw [hs] at this
    exact Option.noConfusion this
  · exact Reachable.includeStep "A/B"
      (Reachable.evictStep "A/B" (Reachable.includeStep "/" Reachable.init))

theorem c10_prune_keeps_stateless_witness :
    (("A", exC10child) ∈ exC10.childmap ∧ exC10child.state = none)
    ∧ (("A", exC10child.pruneAux (effState (some State.included) exC10child)) ∈
        (exC10.pruneAux State.included).childmap
      ∧ exC10.pruneTop = Node.mk [("A", Node.mk [] none)] (some State.included)
      ∧ Reachable exC10) :=
  by
  have hmem : ("A", exC10child) ∈ exC10.childmap := by
    rw [show exC10.childmap = [("A", exC10child)] from rfl]
    exact List.mem_singleton.mpr rfl
  exact ⟨⟨hmem, rfl⟩,
    c10_prune_keeps_stateless State.included exC10 "A" exC10child hmem rfl⟩

/-! ## Claim C7: totality of evict/include -/

/-- C7, counterexample: the legacy `fancysync.nodes.Node.include` cited by
the claim is not total — on the test suite's own scenario
(`evict("bar")` then `include("bar")` on `FakeNode("foo")`) it raises
`ValueError("conflicts with eviction rule")`. -/
theorem c7_fancysync_include_raises :
    Fancysync.fBase.evict "bar" =
      Except.ok (Fancysync.FNode.mk Fancysync.FKind.plain "foo"
        [("bar", Fancysync.FNode.mk Fancysync.FKind.evictK "bar" [])])
    ∧ (Fancysync.FNode.mk Fancysync.FKind.plain "foo"
        [("bar", Fancysync.FNode.mk Fancysync.FKind.evictK "bar" [])]).incl
        "bar" = Except.error "conflicts with eviction rule" :=
  ⟨rfl, rfl⟩

/-- C7, amended: the `Target` operations (`offlinecopy_impl/target.py`)
are total — `evict`/`include` are plain functions on trees with no error
outcome — and they never fail because an ancestor carries the opposite
explicit state: the state set on the child always overrides the inherited
state, so after `evict p` (resp. `include p`) the resolved state at `p` is
`Evicted` (resp. `Included`) whatever the tree was. -/
theorem c7_target_ops_total (p : String) (n : Node) :
    getState (evict p n) p = State.evicted ∧
    getState (incl p n) p = State.included :=
  ⟨getState_evict p n, getState_include p n⟩

/-! ## The flat codec round-trip (claim C4) -/

theorem flatPairsF_congr :
    ∀ {f1 : Nat} (f2 : Nat) (n : Node),
      nodeSize n ≤ f1 → nodeSize n ≤ f2 → flatPairsF f1 n = flatPairsF f2 n := by
  intro f1
  induction f1 using Nat.strong_induction_on with
  | _ f1 ih =>
    intro f2 n h1 h2
    obtain ⟨cm, st⟩ := n
    have hpos := nodeSize_pos (Node.mk cm st)
    cases f1 with
    | zero => omega
    | succ a =>
      cases f2 with
      | zero => omega
      | succ b =>
        simp only [flatPairsF]
        congr 1
        apply flatMap_congr
        intro sc hsc
        have hlt : nodeSize sc.2 < nodeSize (Node.mk cm st) :=
          child_size_lt (mem_sortChildren.mp hsc)
        congr 1
        exact ih a (by omega) b _ (by omega) (by omega)

theorem flatPairs_eq (n : Node) :
    n.flatPairs =
      (match n.state with
       | some st => [(st, ([] : List String))]
       | none => []) ++
      (sortChildren n.childmap).flatMap
        (fun sc => (sc.2.flatPairs).map (fun e => (e.1, sc.1 :: e.2))) := by
  obtain ⟨cm, st⟩ := n
  show flatPairsF (nodeSize (Node.mk cm st)) (Node.mk cm st) = _
  rw [show nodeSize (Node.mk cm st) = nodeListSize cm + 1 by rw [nodeSize_mk]; omega]
  simp only [flatPairsF, Node.childmap_mk, Node.state_mk]
  congr 1
  apply flatMap_congr
  intro sc hsc
  congr 1
  have hlt : nodeSize sc.2 < 1 + nodeListSize cm :=
    child_size_le (mem_sortChildren.mp hsc)
  exact flatPairsF_congr _ _ (by omega) le_rfl

theorem option_or_getD (x y : Option State) (d : State) :
    (x.or y).getD d = x.getD (y.getD d) := by
  cases x <;> rfl

/-- The walked resolution is inheritance applied to the deepest explicit
prefix. -/
theorem getStateFrom_eq_lastExp :
    ∀ (parts : List String) (n : Node) (inh : State),
      getStateFrom inh n parts = (lastExp n parts).getD inh := by
  intro parts
  induction parts with
  | nil => intro n inh; rfl
  | cons p ps ih =>
    intro n inh
    cases hf : findChild p n.childmap with
    | none => simp [getStateFrom, lastExp, hf]
    | some c =>
      simp only [getStateFrom, lastExp, hf]
      rw [ih c (n.state.getD inh), option_or_getD]

theorem resolveChain_acc (l : List (Option State)) :
    ∀ acc, l.foldl (fun acc o => o.or acc) acc = (resolveChain l).or acc := by
  induction l with
  | nil => intro acc; rfl
  | cons o l ih =>
    intro acc
    simp only [List.foldl_cons]
    rw [ih (o.or acc), show resolveChain (o :: l) = (resolveChain l).or o from by
      unfold resolveChain
      simp only [List.foldl_cons]
      rw [ih (o.or none)]
      cases o <;> rfl]
    rw [Option.or_assoc]

theorem resolveChain_cons (o : Option State) (l : List (Option State)) :
    resolveChain (o :: l) = (resolveChain l).or o := by
  unfold resolveChain
  simp only [List.foldl_cons]
  rw [resolveChain_acc l (o.or none)]
  cases o <;> rfl

theorem resolveChain_all_none (l : List (Option State))
    (h : ∀ x ∈ l, x = none) : resolveChain l = none := by
  induction l with
  | nil => rfl
  | cons o l ih =>
    rw [resolveChain_cons, h o (by simp), ih fun x hx => h x (by simp [hx])]
    rfl

/-- `lastExp` is the last explicit state along the prefixes of the path —
so it only depends on `explicitAt` at prefixes. -/
theorem lastExp_eq_resolveChain :
    ∀ (parts : List String) (n : Node),
      lastExp n parts = resolveChain (parts.inits.map (explicitAt n)) := by
  intro parts
  induction parts with
  | nil =>
    intro n
    show n.state = resolveChain [explicitAt n []]
    rw [resolveChain_cons]
    rfl
  | cons p ps ih =>
    intro n
    rw [List.inits_cons, List.map_cons, resolveChain_cons, List.map_map]
    cases hf : findChild p n.childmap with
    | none =>
      have hnone : resolveChain (ps.inits.map (explicitAt n ∘ (p :: ·))) = none := by
        apply resolveChain_all_none
        intro x hx
        obtain ⟨q, _, rfl⟩ := List.mem_map.mp hx
        simp [explicitAt, hf]
      rw [hnone]
      simp [lastExp, hf, explicitAt]
    | some c =>
      have hmap : ps.inits.map (explicitAt n ∘ (p :: ·)) =
          ps.inits.map (explicitAt c) := by
        apply List.map_congr_left
        intro q _
        simp [explicitAt, hf]
      rw [hmap, ← ih c]
      simp [lastExp, hf, explicitAt]

theorem findChild_append_some {k : String} {cm l : List (String × Node)}
    {c : Node} (h : findChild k cm = some c) :
    findChild k (cm ++ l) = some c := by
  induction cm with
  | nil => simp [findChild] at h
  | cons kc rest ih =>
    by_cases hk : kc.1 = k
    · simp only [findChild, if_pos hk] at h ⊢
      exact h
    · simp only [findChild, if_neg hk] at h ⊢
      exact ih h

/-- The explicit state at a path inside a fresh chain. -/
theorem explicitAt_newChain (st : State) :
    ∀ (ps qs : List String),
      explicitAt (newChain st ps) qs = if qs = ps then some st else none := by
  intro ps
  induction ps with
  | nil =>
    intro qs
    cases qs with
    | nil => rfl
    | cons q qs => simp [newChain, explicitAt, findChild]
  | cons p ps ih =>
    intro qs
    cases qs with
    | nil => simp [newChain, explicitAt]
    | cons q qs =>
      by_cases hq : q = p
      · subst hq
        simp [newChain, explicitAt, findChild, ih qs]
      · simp [newChain, explicitAt, findChild, hq, Ne.symm hq]

/-- `ensure_node` followed by the state assignment changes `explicitAt`
at exactly the target path. -/
theorem explicitAt_ensureSet (st : State) :
    ∀ (parts qs : List String) (t : Node),
      explicitAt (ensureSet st parts t) qs =
        if qs = parts then some st else explicitAt t qs := by
  intro parts
  induction parts with
  | nil =>
    intro qs t
    cases qs with
    | nil => rfl
    | cons q qs' => simp [ensureSet, explicitAt]
  | cons p ps ih =>
    intro qs t
    rcases hf : findChild p t.childmap with _ | c
    · simp only [ensureSet]
      rw [hf]
      cases qs with
      | nil => simp [explicitAt]
      | cons q qs' =>
        by_cases hq : q = p
        · subst hq
          have h2 : findChild q (t.childmap ++ [(q, newChain st ps)]) =
              some (newChain st ps) := by
            rw [findChild_append_none hf]
            simp [findChild]
          simp [explicitAt, h2, explicitAt_newChain, hf]
        · have h1 : findChild q (t.childmap ++ [(p, newChain st ps)]) =
              findChild q t.childmap := by
            rcases hg : findChild q t.childmap with _ | d
            · rw [findChild_append_none hg]
              simp [findChild, Ne.symm hq]
            · exact findChild_append_some hg
          simp [explicitAt, h1, hq]
    · simp only [ensureSet]
      rw [hf]
      cases qs with
      | nil => simp [explicitAt]
      | cons q qs' =>
        by_cases hq : q = p
        · subst hq
          simp [explicitAt, findChild_map_upd hf, ih qs' c, hf]
        · simp [explicitAt, findChild_map_upd_ne hq, hq]

theorem explicitAt_empty (qs : List String) :
    explicitAt (Node.mk [] none) qs = none := by
  cases qs with
  | nil => rfl
  | cons q qs' => simp [explicitAt, findChild]

theorem assocLastState_acc (qs : List String) (flat : List (State × String)) :
    ∀ acc, flat.foldl
        (fun acc e => if path_split e.2 = qs then some e.1 else acc) acc =
      (assocLastState qs flat).or acc := by
  induction flat with
  | nil => intro acc; rfl
  | cons e rest ih =>
    intro acc
    simp only [List.foldl_cons]
    rw [ih, show assocLastState qs (e :: rest) =
      (assocLastState qs rest).or (if path_split e.2 = qs then some e.1 else none) from by
        unfold assocLastState
        simp only [List.foldl_cons]
        rw [ih]
        rfl]
    by_cases h : path_split e.2 = qs
    · simp only [if_pos h]
      rw [Option.or_assoc]
      rfl
    · simp only [if_neg h]
      rw [Option.or_assoc]
      rfl

theorem assocLastState_cons (qs : List String) (e : State × String)
    (rest : List (State × String)) :
    assocLastState qs (e :: rest) =
      (assocLastState qs rest).or
        (if path_split e.2 = qs then some e.1 else none) := by
  unfold assocLastState
  simp only [List.foldl_cons]
  rw [assocLastState_acc]
  rfl

/-- Replaying a flat list accumulates explicit states, the last write to a
path winning. -/
theorem explicitAt_from_flat_fold :
    ∀ (flat : List (State × String)) (t : Node) (qs : List String),
      explicitAt
        (flat.foldl (fun t e => ensureSet e.1 (path_split e.2) t) t) qs =
      (assocLastState qs flat).or (explicitAt t qs) := by
  intro flat
  induction flat with
  | nil => intro t qs; rfl
  | cons e rest ih =>
    intro t qs
    simp only [List.foldl_cons]
    rw [ih, assocLastState_cons, explicitAt_ensureSet]
    by_cases h : qs = path_split e.2
    · rw [if_pos h, if_pos h.symm, Option.or_assoc]
      rfl
    · rw [if_neg h, if_neg fun hc => h hc.symm, Option.or_assoc]
      rfl

theorem renderPath_cons (s : String) (segs : List String) (h : segs ≠ []) :
    renderPath (s :: segs) = s ++ "/" ++ renderPath segs := by
  cases segs with
  | nil => exact absurd rfl h
  | cons t r => rfl

theorem path_split_single {s : String} (h : segOKb s = true) :
    path_split s = [s] := by
  rw [path_split_eq_spec]
  unfold pathSplitSpec
  rw [splitSegs_no_slash s.data (segOKb_no_slash h)]
  have : s.data ≠ [] := by
    intro hc
    apply segOKb_ne_empty h
    have := congrArg String.mk hc
    rwa [string_mk_data] at this
  rw [if_neg this]
  simp [string_mk_data]

/-- Rendering a sequence of well-formed segments and splitting it again is
the identity. -/
theorem path_split_renderPath :
    ∀ (segs : List String), (∀ s ∈ segs, segOKb s = true) →
      path_split (renderPath segs) = segs := by
  intro segs
  induction segs with
  | nil => intro _; rfl
  | cons s rest ih =>
    intro h
    cases rest with
    | nil => exact path_split_single (h s (by simp))
    | cons t r =>
      rw [renderPath_cons s (t :: r) (by simp)]
      rw [path_split_eq_spec]
      unfold pathSplitSpec
      have hdata : (s ++ "/" ++ renderPath (t :: r)).data =
          s.data ++ '/' :: (renderPath (t :: r)).data := by
        simp [String.data_append]
      rw [hdata, splitSegs_append_sep, List.map_append]
      have h1 : (splitSegs s.data).map (fun l => String.mk l) = [s] := by
        have := path_split_single (h s (by simp))
        rw [path_split_eq_spec] at this
        exact this
      have h2 : (splitSegs (renderPath (t :: r)).data).map
          (fun l => String.mk l) = t :: r := by
        have := ih fun q hq => h q (by simp [hq])
        rw [path_split_eq_spec] at this
        exact this
      rw [h1, h2]
      rfl

theorem findChild_of_mem_nodup {k : String} {c : Node}
    {cm : List (String × Node)} (hnd : (cm.map (fun kc => kc.1)).Nodup)
    (hm : (k, c) ∈ cm) : findChild k cm = some c := by
  induction cm with
  | nil => simp at hm
  | cons kc rest ih =>
    simp only [List.map_cons, List.nodup_cons] at hnd
    rcases List.mem_cons.mp hm with heq | hm'
    · rw [← heq]
      simp [findChild]
    · have hk : kc.1 ≠ k := by
        intro hc
        apply hnd.1
        rw [hc]
        exact List.mem_map_of_mem _ hm'
      simp only [findChild, if_neg hk]
      exact ih hnd.2 hm'

/-- `iter_nodes` is the explicit-node listing with rendered paths. -/
theorem iterNodesFrom_flatPairs :
    ∀ (N : Nat) (n : Node) (hp : Bool), nodeSize n ≤ N → n.wf = true →
      n.iterNodesFrom hp =
        (n.flatPairs).map (fun e => (e.1, pathOptF hp e.2)) := by
  intro N
  induction N using Nat.strong_induction_on with
  | _ N ih =>
    intro n hp hle hwf
    rw [iterNodesFrom_eq, flatPairs_eq, List.map_append]
    congr 1
    · cases hs : n.state with
      | none => rfl
      | some st => cases hp <;> simp [pathOptF, renderPath]
    · rw [List.map_flatMap]
      apply flatMap_congr
      intro sc hsc
      have hcw := wf_child hwf (mem_sortChildren.mp hsc)
      have hlt : nodeSize sc.2 < nodeSize n := by
        obtain ⟨cm, st⟩ := n
        exact child_size_lt (mem_sortChildren.mp hsc)
      rw [ih (nodeSize sc.2) (by omega) sc.2 true le_rfl hcw.2]
      unfold rebase_rules
      rw [List.map_map, List.map_map]
      apply List.map_congr_left
      intro e _
      rcases e with ⟨st, segs⟩
      cases segs with
      | nil =>
        simp only [Function.comp]
        simp [pathOptF, renderPath]
        exact rebase_none_eq2 sc.1 (segOKb_no_slash hcw.1)
      | cons t r =>
        simp only [Function.comp]
        simp [pathOptF, renderPath_cons]

/-- `Target.iter_flat_nodes` on a well-formed tree: every entry is the
rendered path of an explicitly stated node. -/
theorem iter_nodes_flatPairs (n : Node) (h : n.wf = true) :
    n.iter_nodes = (n.flatPairs).map (fun e => (e.1, some (renderPath e.2))) := by
  unfold Node.iter_nodes Node.iterNodesFrom
  rw [show iterNodesF (nodeSize n) false n = n.iterNodesFrom false from rfl]
  rw [iterNodesFrom_flatPairs (nodeSize n) n false le_rfl h]
  apply List.map_congr_left
  intro e _
  simp [pathOptF]

/-- Segments of flat-pairs paths are well-formed segment names. -/
theorem flatPairs_segOK :
    ∀ (N : Nat) (n : Node), nodeSize n ≤ N → n.wf = true →
      ∀ e ∈ n.flatPairs, ∀ s ∈ e.2, segOKb s = true := by
  intro N
  induction N using Nat.strong_induction_on with
  | _ N ih =>
    intro n hle hwf e he s hs
    rw [flatPairs_eq] at he
    rcases List.mem_append.mp he with he | he
    · cases hst : n.state with
      | none => rw [hst] at he; simp at he
      | some st =>
        rw [hst] at he
        simp at he
        subst he
        simp at hs
    · obtain ⟨sc, hsc, hin⟩ := List.mem_flatMap.mp he
      obtain ⟨e', he', rfl⟩ := List.mem_map.mp hin
      have hcw := wf_child hwf (mem_sortChildren.mp hsc)
      have hlt : nodeSize sc.2 < nodeSize n := by
        obtain ⟨cm, st⟩ := n
        exact child_size_lt (mem_sortChildren.mp hsc)
      rcases List.mem_cons.mp hs with rfl | hs'
      · exact hcw.1
      · exact ih (nodeSize sc.2) (by omega) sc.2 le_rfl hcw.2 e' he' s hs'

/-- The flat pairs are exactly the nodes with explicit state. -/
theorem flatPairs_mem :
    ∀ (N : Nat) (n : Node), nodeSize n ≤ N → n.wf = true →
      ∀ (st : State) (qs : List String),
        ((st, qs) ∈ n.flatPairs ↔ explicitAt n qs = some st) := by
  intro N
  induction N using Nat.strong_induction_on with
  | _ N ih =>
    intro n hle hwf st qs
    rw [flatPairs_eq]
    cases qs with
    | nil =>
      show _ ↔ n.state = some st
      constructor
      · intro hm
        rcases List.mem_append.mp hm with hm | hm
        · cases hst : n.state with
          | none => rw [hst] at hm; simp at hm
          | some s =>
            rw [hst] at hm
            simp at hm
            rw [hm]
        · obtain ⟨sc, _, hin⟩ := List.mem_flatMap.mp hm
          obtain ⟨e2, _, he2⟩ := List.mem_map.mp hin
          exact absurd (congrArg Prod.snd he2) (by simp)
      · intro hst
        apply List.mem_append.mpr
        left
        simp [hst]
    | cons q qs2 =>
      have hsplit : explicitAt n (q :: qs2) =
          match findChild q n.childmap with
          | none => none
          | some c => explicitAt c qs2 := rfl
      constructor
      · intro hm
        rcases List.mem_append.mp hm with hm | hm
        · cases hst : n.state with
          | none => rw [hst] at hm; simp at hm
          | some s =>
            rw [hst] at hm
            simp at hm
        · obtain ⟨sc, hsc, hin⟩ := List.mem_flatMap.mp hm
          obtain ⟨e2, he2, heq⟩ := List.mem_map.mp hin
          have h1 : sc.1 = q := by
            have := congrArg Prod.snd heq
            simp at this
            exact this.1
          have h2 : e2 = (st, qs2) := by
            have hs := congrArg Prod.snd heq
            have hf := congrArg Prod.fst heq
            simp at hs hf
            calc e2 = (e2.1, e2.2) := rfl
              _ = (st, qs2) := by rw [hf, hs.2]
          have hmem : (q, sc.2) ∈ n.childmap := by
            have := mem_sortChildren.mp hsc
            rw [← h1]
            exact this
          have hfc : findChild q n.childmap = some sc.2 :=
            findChild_of_mem_nodup (wf_keys_nodup hwf) hmem
          rw [hsplit, hfc]
          have hcw := wf_child hwf hmem
          have hlt : nodeSize sc.2 < nodeSize n := by
            obtain ⟨cm, s0⟩ := n
            exact child_size_lt (e := (q, sc.2)) hmem
          rw [← ih (nodeSize sc.2) (by omega) sc.2 le_rfl hcw.2 st qs2]
          rw [h2] at he2
          exact he2
      · intro hx
        rw [hsplit] at hx
        rcases hfc : findChild q n.childmap with _ | c
        · rw [hfc] at hx
          exact absurd hx (by simp)
        · rw [hfc] at hx
          have hmem : (q, c) ∈ n.childmap := findChild_some_mem hfc
          have hcw := wf_child hwf hmem
          have hlt : nodeSize c < nodeSize n := by
            obtain ⟨cm, s0⟩ := n
            exact child_size_lt (e := (q, c)) hmem
          have hrec := (ih (nodeSize c) (by omega) c le_rfl hcw.2 st qs2).mpr hx
          apply List.mem_append.mpr
          right
          apply List.mem_flatMap.mpr
          refine ⟨(q, c), mem_sortChildren.mpr hmem, ?_⟩
          exact List.mem_map.mpr ⟨(st, qs2), hrec, rfl⟩

theorem nodup_flatMap_cons :
    ∀ (l : List (String × Node)) (g : Node → List (List String)),
      (l.map (fun kc => kc.1)).Nodup →
      (∀ sc ∈ l, (g sc.2).Nodup) →
      (l.flatMap (fun sc => (g sc.2).map (fun qs => sc.1 :: qs))).Nodup := by
  intro l g
  induction l with
  | nil => intro _ _; simp
  | cons sc rest ih =>
    intro hk hg
    rw [List.flatMap_cons, List.nodup_append]
    simp only [List.map_cons, List.nodup_cons] at hk
    refine ⟨?_, ih hk.2 fun x hx => hg x (by simp [hx]), ?_⟩
    · apply List.Nodup.map
      · intro a b hab
        injection hab
      · exact hg sc (by simp)
    · intro x hxA hxB
      obtain ⟨qs1, _, rfl⟩ := List.mem_map.mp hxA
      obtain ⟨sc2, hsc2, hx2⟩ := List.mem_flatMap.mp hxB
      obtain ⟨qs2, _, heq⟩ := List.mem_map.mp hx2
      have hhead : sc2.1 = sc.1 := by
        have := congrArg List.head? heq
        simpa using this
      exact hk.1 (by rw [← hhead]; exact List.mem_map_of_mem _ hsc2)

/-- The flat-pairs paths of a well-formed tree are pairwise distinct. -/
theorem flatPairs_paths_nodup :
    ∀ (N : Nat) (n : Node), nodeSize n ≤ N → n.wf = true →
      ((n.flatPairs).map (fun e => e.2)).Nodup := by
  intro N
  induction N using Nat.strong_induction_on with
  | _ N ih =>
    intro n hle hwf
    rw [flatPairs_eq, List.map_append]
    rw [List.nodup_append]
    have hkeys : ((sortChildren n.childmap).map (fun kc => kc.1)).Nodup := by
      have hperm : List.Perm ((sortChildren n.childmap).map (fun kc => kc.1))
          (n.childmap.map (fun kc => kc.1)) := (sortChildren_perm _).map _
      exact hperm.nodup_iff.mpr (wf_keys_nodup hwf)
    have hsub : ∀ sc ∈ sortChildren n.childmap,
        ((sc.2.flatPairs).map (fun e => e.2)).Nodup := by
      intro sc hsc
      have hcw := wf_child hwf (mem_sortChildren.mp hsc)
      have hlt : nodeSize sc.2 < nodeSize n := by
        obtain ⟨cm, s0⟩ := n
        exact child_size_lt (mem_sortChildren.mp hsc)
      exact ih (nodeSize sc.2) (by omega) sc.2 le_rfl hcw.2
    refine ⟨?_, ?_, ?_⟩
    · cases n.state <;> simp
    · rw [List.map_flatMap]
      have heq : (sortChildren n.childmap).flatMap
            (fun sc => ((sc.2.flatPairs).map
              (fun e => (e.1, sc.1 :: e.2))).map (fun e => e.2)) =
          (sortChildren n.childmap).flatMap
            (fun sc => ((sc.2.flatPairs).map (fun e => e.2)).map
              (fun qs => sc.1 :: qs)) := by
        apply flatMap_congr
        intro sc _
        rw [List.map_map, List.map_map]
        rfl
      rw [heq]
      exact nodup_flatMap_cons _
        (fun nd => (Node.flatPairs nd).map (fun e => e.2)) hkeys hsub
    · intro x hxA hxB
      rw [List.map_flatMap] at hxB
      obtain ⟨sc, _, hx2⟩ := List.mem_flatMap.mp hxB
      rw [List.map_map] at hx2
      obtain ⟨e2, _, heq⟩ := List.mem_map.mp hx2
      cases hst : n.state with
      | none => rw [hst] at hxA; simp at hxA
      | some s =>
        rw [hst] at hxA
        simp at hxA
        rw [hxA] at heq
        exact absurd heq (by simp)

theorem lookupPairs_eq_none {qs : List String} {l : List (State × List String)}
    (h : ∀ e ∈ l, e.2 ≠ qs) : lookupPairs qs l = none := by
  induction l with
  | nil => rfl
  | cons e rest ih =>
    simp only [lookupPairs, if_neg (h e (by simp))]
    exact ih fun x hx => h x (by simp [hx])

theorem lookupPairs_of_mem {st : State} {qs : List String}
    {l : List (State × List String)} (hnd : (l.map (fun e => e.2)).Nodup)
    (hm : (st, qs) ∈ l) : lookupPairs qs l = some st := by
  induction l with
  | nil => simp at hm
  | cons e rest ih =>
    simp only [List.map_cons, List.nodup_cons] at hnd
    rcases List.mem_cons.mp hm with heq | hm2
    · rw [← heq]
      simp [lookupPairs]
    · have hne : e.2 ≠ qs := by
        intro hc
        apply hnd.1
        rw [hc]
        have : (st, qs).2 ∈ rest.map (fun e => e.2) :=
          List.mem_map_of_mem _ hm2
        exact this
      simp only [lookupPairs, if_neg hne]
      exact ih hnd.2 hm2

/-- Replaying rendered flat pairs looks up states by segment sequence. -/
theorem assocLast_rendered :
    ∀ (l : List (State × List String)),
      (∀ e ∈ l, ∀ s ∈ e.2, segOKb s = true) →
      (l.map (fun e => e.2)).Nodup →
      ∀ qs, assocLastState qs (l.map (fun e => (e.1, renderPath e.2))) =
        lookupPairs qs l := by
  intro l
  induction l with
  | nil => intro _ _ qs; rfl
  | cons e rest ih =>
    intro hseg hnd qs
    simp only [List.map_cons, List.nodup_cons] at hnd
    rw [List.map_cons, assocLastState_cons]
    show (assocLastState qs (rest.map fun e => (e.1, renderPath e.2))).or
        (if path_split (renderPath e.2) = qs then some e.1 else none) =
      lookupPairs qs (e :: rest)
    rw [path_split_renderPath e.2 (hseg e (by simp)),
      ih (fun x hx => hseg x (by simp [hx])) hnd.2 qs]
    show _ = if e.2 = qs then some e.1 else lookupPairs qs rest
    by_cases h : e.2 = qs
    · rw [if_pos h, if_pos h]
      rw [lookupPairs_eq_none fun x hx hc => hnd.1 (by
        rw [← h] at hc
        rw [← hc]
        exact List.mem_map_of_mem _ hx)]
      rfl
    · rw [if_neg h, if_neg h, Option.or_none]

theorem lookupPairs_flatPairs (n : Node) (h : n.wf = true)
    (qs : List String) : lookupPairs qs n.flatPairs = explicitAt n qs := by
  cases hx : explicitAt n qs with
  | some st =>
    apply lookupPairs_of_mem (flatPairs_paths_nodup (nodeSize n) n le_rfl h)
    exact (flatPairs_mem (nodeSize n) n le_rfl h st qs).mpr hx
  | none =>
    apply lookupPairs_eq_none
    intro e he hep
    have hmem : (e.1, qs) ∈ n.flatPairs := by
      rw [← hep]
      have : (e.1, e.2) = e := rfl
      rw [this]
      exact he
    have := (flatPairs_mem (nodeSize n) n le_rfl h e.1 qs).mp hmem
    rw [hx] at this
    exact Option.noConfusion this

/-- Rebuilding from the flat listing restores the explicit state at every
segment sequence. -/
theorem explicitAt_roundtrip (n : Node) (h : n.wf = true)
    (qs : List String) :
    explicitAt
        (from_flat_nodes ((n.iter_nodes).map (fun e => (e.1, e.2.getD ""))))
        qs =
      explicitAt n qs := by
  rw [iter_nodes_flatPairs n h, List.map_map]
  have hmap : (n.flatPairs).map
        ((fun (e : State × Option String) => (e.1, e.2.getD "")) ∘
          (fun (e : State × List String) => (e.1, some (renderPath e.2)))) =
      (n.flatPairs).map (fun e => (e.1, renderPath e.2)) := by
    apply List.map_congr_left
    intro e _
    rfl
  rw [hmap]
  unfold from_flat_nodes
  rw [explicitAt_from_flat_fold, explicitAt_empty, Option.or_none]
  rw [assocLast_rendered n.flatPairs (flatPairs_segOK (nodeSize n) n le_rfl h)
    (flatPairs_paths_nodup (nodeSize n) n le_rfl h) qs]
  exact lookupPairs_flatPairs n h qs

/-! ## Claim C4: flat round-trip preserves every resolved state -/

/-- C4: for every tree reachable by `evict`/`include` calls on a target,
feeding `iter_flat_nodes` into `from_flat_nodes` yields a tree with the
same `get_state` at every path string (the top-level flat listing carries
genuine path strings: every entry's path is present). -/
theorem c4_flat_roundtrip (n : Node) (h : Reachable n) (p : String) :
    getState
        (from_flat_nodes ((n.iter_nodes).map (fun e => (e.1, e.2.getD ""))))
        p =
      getState n p
    ∧ ∀ e ∈ n.iter_nodes, e.2.isSome := by
  have hwf := reachable_wf h
  constructor
  · unfold getState
    rw [getStateFrom_eq_lastExp, getStateFrom_eq_lastExp,
      lastExp_eq_resolveChain, lastExp_eq_resolveChain]
    have hcong : ((path_split p).inits).map
          (explicitAt (from_flat_nodes
            ((n.iter_nodes).map (fun e => (e.1, e.2.getD ""))))) =
        ((path_split p).inits).map (explicitAt n) :=
      List.map_congr_left fun qs _ => explicitAt_roundtrip n hwf qs
    rw [hcong]
  · intro e he
    rw [iter_nodes_flatPairs n hwf] at he
    obtain ⟨x, _, rfl⟩ := List.mem_map.mp he
    rfl

theorem c4_flat_roundtrip_witness :
    Reachable targetC3
    ∧ (getState
          (from_flat_nodes
            ((targetC3.iter_nodes).map (fun e => (e.1, e.2.getD ""))))
          "A/B/Q" =
        getState targetC3 "A/B/Q"
      ∧ ∀ e ∈ targetC3.iter_nodes, e.2.isSome) := by
  have hr : Reachable targetC3 :=
    Reachable.includeStep "A/E" (Reachable.evictStep "A/B/C/D"
      (Reachable.includeStep "A/B/C" (Reachable.evictStep "A"
        (Reachable.includeStep "/" Reachable.init))))
  exact ⟨hr, c4_flat_roundtrip targetC3 hr "A/B/Q"⟩

end Offlinecopy
